import Mathlib

/-!
Verification of the FinPack simulation engine.

This development gives a shallow embedding of the core of the FinPack
backtesting system: the currency-safe `Money` value type and historical `FX`
rate service (`core/currency.py`), the indicator ranking and streak checks
(`core/indicator.py`), and the day-by-day portfolio simulator
(`backtest/engine.py`) together with the date-range resolution of
`backtest/runner.py`.

Modelling conventions:
* Python floats are modelled as rationals (`ℚ`); dates as integers ordered
  like the date strings of the source.
* The engine's portfolio-level amounts (cash, TWD cost bases, fees) are
  carried as plain rationals: the source annotates every one of them as TWD
  and only ever combines TWD with TWD, so the currency tag there is constant.
  Prices and original-currency trade amounts keep the full `Money` type.
* `pandas`/`numpy` library calls are embedded by their documented semantics
  (`rank(axis=1, ascending=False, method='min')`, `searchsorted` on a sorted
  index, `DataFrame.iloc[idx].get`).
* A NaN close cell for a held symbol is modelled as the source's dictionary
  fallback value; the simulator only reads prices of symbols that are columns
  of the close matrix.
* The `Indicators` object is an injected dependency of `BacktestEngine` in the
  source, so the engine embedding is parameterized over its access surface.
-/

namespace FinPack

/-- Currency tags from core/currency.py (class Currency). -/
inductive Currency where
  | TWD
  | USD
deriving DecidableEq, Repr

/-- Failures of Money arithmetic: CurrencyMismatchError for mixed-currency
add/sub/div, and Python's ZeroDivisionError for scalar division by zero. -/
inductive MoneyError where
  | currencyMismatch (left right : Currency) (op : String)
  | zeroDivision
deriving DecidableEq, Repr

/-- Money: an amount tagged with a currency (core/currency.py class Money). -/
structure Money where
  amount : ℚ
  currency : Currency
deriving DecidableEq, Repr

/-- Factory twd(amount). -/
def twd (a : ℚ) : Money := ⟨a, Currency.TWD⟩

/-- Factory usd(amount). -/
def usd (a : ℚ) : Money := ⟨a, Currency.USD⟩

namespace Money

/-- Money.__add__: same-currency addition, else CurrencyMismatchError. -/
def add (a b : Money) : Except MoneyError Money :=
  if a.currency = b.currency then .ok ⟨a.amount + b.amount, a.currency⟩
  else .error (.currencyMismatch a.currency b.currency "+")

/-- Money.__sub__: same-currency subtraction, else CurrencyMismatchError. -/
def sub (a b : Money) : Except MoneyError Money :=
  if a.currency = b.currency then .ok ⟨a.amount - b.amount, a.currency⟩
  else .error (.currencyMismatch a.currency b.currency "-")

/-- Money.__mul__ with a plain scalar: always succeeds, currency preserved. -/
def mulScalar (a : Money) (n : ℚ) : Money := ⟨a.amount * n, a.currency⟩

/-- Money.__truediv__ with a plain scalar: Python raises ZeroDivisionError on
a zero divisor, otherwise divides the amount and preserves the currency. -/
def divScalar (a : Money) (n : ℚ) : Except MoneyError Money :=
  if n = 0 then .error .zeroDivision else .ok ⟨a.amount / n, a.currency⟩

/-- Money.__truediv__ with another Money: dimensionless ratio, same-currency
only. -/
def divMoney (a b : Money) : Except MoneyError ℚ :=
  if a.currency = b.currency then .ok (a.amount / b.amount)
  else .error (.currencyMismatch a.currency b.currency "/")

/-- Money.__neg__. -/
def neg (a : Money) : Money := ⟨-a.amount, a.currency⟩

/-- Money.__abs__. -/
def absM (a : Money) : Money := ⟨|a.amount|, a.currency⟩

/-- Money.__eq__: same currency and amounts within the source's 1e-6 float
tolerance. -/
def eqTol (a b : Money) : Bool :=
  decide (a.currency = b.currency) && decide (|a.amount - b.amount| < 1 / 1000000)

end Money

/-- FX rate service (core/currency.py class FX): a date-to-rate history table.
The pickle/yfinance loading that populates the table is an external
collaborator; the table itself is the state the lookups read. -/
structure FX where
  history : List (ℤ × ℚ)

namespace FX

/-- DEFAULT_RATE = 32.0. -/
def DEFAULT_RATE : ℚ := 32

/-- History keys sorted descending, mirroring reversed(sorted(keys)). -/
def keysDesc (fx : FX) : List ℤ :=
  (fx.history.map Prod.fst).mergeSort (fun a b => decide (b ≤ a))

/-- Value stored in the history for a key. -/
def lookup (fx : FX) (d : ℤ) : Option ℚ :=
  (fx.history.find? (fun kv => kv.1 == d)).map Prod.snd

/-- FX.rate(date): the exact-date rate when the date is in the table, else the
most recent rate at or before that date, else DEFAULT_RATE. -/
def rate (fx : FX) (date : ℤ) : ℚ :=
  match fx.history.find? (fun kv => kv.1 == date) with
  | some kv => kv.2
  | none =>
    match fx.keysDesc.find? (fun d => decide (d ≤ date)) with
    | some d => (fx.lookup d).getD DEFAULT_RATE
    | none => DEFAULT_RATE

/-- FX.to_twd: a no-op on TWD money, else multiply by the day's rate. -/
def toTwd (fx : FX) (m : Money) (date : ℤ) : Money :=
  if m.currency = Currency.TWD then m else twd (m.amount * fx.rate date)

/-- FX.to_usd: a no-op on USD money, else divide by the day's rate. -/
def toUsd (fx : FX) (m : Money) (date : ℤ) : Money :=
  if m.currency = Currency.USD then m else usd (m.amount / fx.rate date)

end FX

/-- Rank of one defined score inside a row, with the semantics of pandas
DataFrame.rank(axis=1, ascending=False, method='min') to which
calculate_ranking_matrix (core/indicator.py) delegates: one plus the number
of cells holding a strictly greater defined value. -/
def rankValue (row : List (Option ℚ)) (v : ℚ) : ℕ :=
  1 + row.countP (fun o => match o with | some w => decide (v < w) | none => false)

/-- One date row of calculate_ranking_matrix: defined cells get their
min-method descending rank, missing cells stay missing (na_option keep). -/
def rankRow (row : List (Option ℚ)) : List (Option ℕ) :=
  row.map (fun o => o.map (fun v => rankValue row v))

/-- calculate_ranking_matrix (core/indicator.py): per-date cross-sectional
ranking of the score matrix. -/
def calculateRankingMatrix (m : List (List (Option ℚ))) : List (List (Option ℕ)) :=
  m.map rankRow

/-- Stock metadata entry, one value of the stock_info map. -/
structure StockInfo where
  country : String
  industry : String
deriving DecidableEq, Repr

/-- Country of a symbol: stock_info.get(symbol, default).get('country', 'US'). -/
def countryOfInfo (stockInfo : String → Option StockInfo) (sym : String) : String :=
  ((stockInfo sym).map StockInfo.country).getD "US"

/-- check_in_growth_top_percentile (core/indicator.py): membership in the
prefix of the country's growth ranking list cut at
max(1, ceil(len * percentile / 100)); an empty list fails. -/
def checkInGrowthTopPercentile (growthRank : ℤ → String → List String)
    (symbol : String) (date : ℤ) (country : String) (percentile : ℚ) : Bool :=
  let ranking := growthRank date country
  if ranking.isEmpty then false
  else
    let topn : ℕ := max 1 (Int.toNat ⌈(ranking.length : ℚ) * percentile / 100⌉)
    (ranking.take topn).contains symbol

/-- check_growth_streak (core/indicator.py): requires the top-percentile
membership on each of the last `days` date positions ending at `idx`. -/
def checkGrowthStreak (dates : List ℤ) (stockInfo : String → Option StockInfo)
    (growthRank : ℤ → String → List String)
    (symbol : String) (idx days : ℕ) (percentile : ℚ) : Bool :=
  if idx < days - 1 then false
  else
    let country := countryOfInfo stockInfo symbol
    (List.range days).all (fun i =>
      let checkIdx : ℤ := (idx : ℤ) - i
      if checkIdx < 0 ∨ (dates.length : ℤ) ≤ checkIdx then false
      else
        match dates[checkIdx.toNat]? with
        | some d => checkInGrowthTopPercentile growthRank symbol d country percentile
        | none => false)

/-- Python int() applied to a rational: truncation toward zero. -/
def pyTrunc (q : ℚ) : ℤ := if q < 0 then ⌈q⌉ else ⌊q⌋

/-- Side of a trade (backtest/engine.py TradeType). -/
inductive TradeType where
  | buy
  | sell
deriving DecidableEq, Repr

/-- Fee schedule entry of core/config.py FEES. -/
structure FeeCfg where
  rate : ℚ
  minFee : ℚ
deriving DecidableEq, Repr

/-- FEES for the US market: rate 0.003, minimum fee 15 TWD. -/
def feesUs : FeeCfg := ⟨3 / 1000, 15⟩

/-- FEES for the TW market: rate 0.006, minimum fee 0. -/
def feesTw : FeeCfg := ⟨6 / 1000, 0⟩

/-- NON_TRADABLE_INDUSTRIES from core/config.py. -/
def nonTradableIndustries : List String := ["Market Index", "Index"]

/-- Buy-rule configuration: each enabled rule carries its parameters
(buy_conditions dict of the backtest config). -/
structure BuyConditions where
  sharpeRank : Option ℕ
  sharpeThreshold : Option ℚ
  sharpeStreak : Option (ℕ × ℕ)
  growthStreak : Option (ℕ × ℚ)
  growthRank : Option ℕ
  sortIndustry : Option ℕ
  sortSharpe : Bool

/-- Sell-rule configuration (sell_conditions dict). -/
structure SellConditions where
  sharpeFail : Option (ℕ × ℕ)
  growthFail : Option (ℕ × ℚ)
  notSelected : Option ℕ
  drawdown : Option (ℚ × Bool)
  weakness : Option (ℕ × ℕ)

/-- Rebalance strategy variants of _process_rebalance; an unrecognized type
string behaves like the final no-op branch and is folded into noRebalance. -/
inductive RebalanceStrategy where
  | batch (ratio : ℚ)
  | immediate
  | concentrated (topK : ℕ) (leadMargin : ℚ)
  | delayed (topN : ℕ) (sharpeThreshold : ℚ)
  | noRebalance

/-- Resolved backtest configuration consumed by BacktestEngine. -/
structure Config where
  initialCapital : ℚ
  amountPerStock : ℚ
  maxPositions : ℕ
  rebalanceFreq : String
  market : String
  buyConditions : BuyConditions
  sellConditions : SellConditions
  rebalanceStrategy : RebalanceStrategy

/-- Access surface of the injected core/indicator.py Indicators instance as
the engine consumes it. -/
structure Indicators where
  getSharpe : String → ℕ → Option ℚ
  getGrowth : String → ℕ → Option ℚ
  checkInSharpeTopK : String → ℤ → String → ℕ → Bool
  checkInGrowthTopK : String → ℤ → String → ℕ → Bool
  checkSharpeStreak : String → ℕ → ℕ → ℕ → Bool
  checkGrowthStreakI : String → ℕ → ℕ → ℚ → Bool
  getSharpeRankPosition : String → ℤ → String → ℤ
  getGrowthRankPosition : String → ℤ → String → ℤ
  sharpeRankByCountry : ℤ → String → List String

/-- Immutable inputs of one engine instance: close matrix (date index plus a
cell accessor), symbol list (the close columns), metadata, FX service,
indicators, and the calendar projections used by _is_rebalance_day. -/
structure Env where
  dates : List ℤ
  symbols : List String
  close : ℕ → String → Option ℚ
  stockInfo : String → Option StockInfo
  fx : FX
  indicators : Indicators
  weekOf : ℤ → ℤ
  monthOf : ℤ → ℤ

/-- Date at a day index (strftime of close.index[idx]). -/
def Env.dateOf (env : Env) (idx : ℕ) : ℤ := env.dates.getD idx 0

/-- Country lookup with the source's 'US' default. -/
def Env.countryOf (env : Env) (sym : String) : String :=
  countryOfInfo env.stockInfo sym

/-- Industry lookup with an explicit default (the source uses both the empty
string and 'Unknown' as defaults at different places). -/
def Env.industryOf (env : Env) (sym : String) (dflt : String) : String :=
  ((env.stockInfo sym).map StockInfo.industry).getD dflt

/-- Open position (backtest/engine.py Position). -/
structure Position where
  symbol : String
  shares : ℤ
  avgCost : Money
  costBasis : ℚ
  buyDate : ℤ
  buyPrice : Money
  peakPrice : ℚ
  country : String
deriving DecidableEq, Repr

/-- Trade record (backtest/engine.py Trade); TWD-annotated fields carried as
rationals, reasons flattened to their rule tags. -/
structure Trade where
  date : ℤ
  symbol : String
  side : TradeType
  shares : ℤ
  price : Money
  amount : Money
  amountTwd : ℚ
  fee : ℚ
  reason : String
  profit : ℚ
deriving DecidableEq, Repr

/-- Per-holding detail of the daily snapshot (holdings_snapshot entry,
restricted to the fields the invariants speak about). -/
structure Holding where
  symbol : String
  shares : ℤ
  marketValue : ℚ
deriving DecidableEq, Repr

/-- One appended equity-curve record of _process_day. -/
structure EquityPoint where
  date : ℤ
  equity : ℚ
  cash : ℚ
  holdingsValue : ℚ
  holdings : List Holding
deriving DecidableEq, Repr

/-- Mutable engine state: cash, insertion-ordered position dict, trade ledger,
equity curve, and the four per-symbol sell counters (absent keys read 0). -/
structure EngineState where
  cash : ℚ
  positions : List Position
  trades : List Trade
  equityCurve : List EquityPoint
  sharpeFailCounter : String → ℕ
  growthFailCounter : String → ℕ
  notSelectedCounter : String → ℕ
  weaknessCounter : String → ℕ

/-- Pointwise update of a counter map. -/
def setCounter (f : String → ℕ) (sym : String) (v : ℕ) : String → ℕ :=
  fun x => if x = sym then v else f x

/-- Membership of a symbol in the position dict. -/
def heldSymbol (s : EngineState) (sym : String) : Bool :=
  s.positions.any (fun p => p.symbol == sym)

/-- _check_buy: every enabled buy rule must accept the symbol. -/
def checkBuy (env : Env) (cfg : Config) (sym : String) (idx : ℕ) : Bool :=
  let bc := cfg.buyConditions
  let date := env.dateOf idx
  let country := env.countryOf sym
  (match bc.sharpeRank with
   | some topN => env.indicators.checkInSharpeTopK sym date country topN
   | none => true) &&
  (match bc.sharpeThreshold with
   | some th =>
     match env.indicators.getSharpe sym idx with
     | some sh => decide (th ≤ sh)
     | none => false
   | none => true) &&
  (match bc.sharpeStreak with
   | some dt => env.indicators.checkSharpeStreak sym idx dt.1 dt.2
   | none => true) &&
  (match bc.growthStreak with
   | some dp => env.indicators.checkGrowthStreakI sym idx dp.1 dp.2
   | none => true) &&
  (match bc.growthRank with
   | some topN => env.indicators.checkInGrowthTopK sym date country topN
   | none => true)

/-- Buy candidate entry of _select_stocks. -/
structure Candidate where
  symbol : String
  sharpe : Option ℚ
  industry : String
deriving DecidableEq, Repr

/-- Sort key of a candidate: its score, None read as -999. -/
def sharpeKey (c : Candidate) : ℚ := c.sharpe.getD (-999)

/-- Stable descending comparison on candidate scores (Python list.sort with
reverse=True is stable). -/
def candLE (a b : Candidate) : Bool := decide (sharpeKey b ≤ sharpeKey a)

/-- Append a candidate to its industry group, creating the group at the end on
first sight (Python dict insertion order). -/
def addToGroups (groups : List (String × List Candidate)) (c : Candidate) :
    List (String × List Candidate) :=
  if groups.any (fun g => g.1 == c.industry) then
    groups.map (fun (g : String × List Candidate) =>
      if g.1 == c.industry then (g.1, g.2 ++ [c]) else g)
  else groups ++ [(c.industry, [c])]

/-- Group candidates by industry in first-appearance order. -/
def groupByIndustry (cands : List Candidate) : List (String × List Candidate) :=
  cands.foldl addToGroups []

/-- Order key of an industry group: the score of its best candidate. -/
def groupKey (g : String × List Candidate) : ℚ :=
  sharpeKey (g.2.headD ⟨"", none, ""⟩)

/-- One round of the industry round-robin: in round k each industry group
contributes its element at index k while k is below the per-industry cap. -/
def rrRound (groups : List (String × List Candidate)) (perIndustry k : ℕ) :
    List Candidate :=
  groups.filterMap (fun g => if k < perIndustry then g.2[k]? else none)

/-- Fuel-bounded round-robin loop of _select_stocks (the source bounds it by
max_rounds = per_industry * number-of-industries + 1 and stops at the first
round that makes no progress). -/
def roundRobinGo (groups : List (String × List Candidate)) (perIndustry : ℕ) :
    ℕ → ℕ → List Candidate
  | 0, _ => []
  | fuel + 1, k =>
    let row := rrRound groups perIndustry k
    if row.isEmpty then []
    else row ++ roundRobinGo groups perIndustry fuel (k + 1)

/-- _select_stocks: filter the symbol universe through the non-tradable
industry exclusion and the buy rules, then order by industry round-robin or by
descending score. -/
def selectStocks (env : Env) (cfg : Config) (idx : ℕ) : List String :=
  let bc := cfg.buyConditions
  let candidates := env.symbols.filterMap (fun sym =>
    if nonTradableIndustries.contains (env.industryOf sym "") then none
    else if checkBuy env cfg sym idx then
      some (⟨sym, env.indicators.getSharpe sym idx, env.industryOf sym "Unknown"⟩ : Candidate)
    else none)
  let final :=
    match bc.sortIndustry with
    | some perIndustry =>
      let groups := (groupByIndustry candidates).map
        (fun (g : String × List Candidate) => (g.1, g.2.mergeSort candLE))
      let ordered := groups.mergeSort (fun a b => decide (groupKey b ≤ groupKey a))
      roundRobinGo ordered perIndustry (perIndustry * ordered.length + 1) 0
    | none =>
      if bc.sortSharpe then candidates.mergeSort candLE else candidates
  final.map Candidate.symbol

/-- Chain two sell-rule evaluations: the first firing rule wins and later
rules (and their counters) are not evaluated that day. -/
def orElseSell (a : EngineState × Option String)
    (f : EngineState → EngineState × Option String) : EngineState × Option String :=
  match a with
  | (s, some r) => (s, some r)
  | (s, none) => f s

/-- Sell rule sharpe_fail: counts consecutive days outside the country Top-K. -/
def sellRuleSharpeFail (env : Env) (cfg : Config) (sym : String) (idx : ℕ)
    (s : EngineState) : EngineState × Option String :=
  match cfg.sellConditions.sharpeFail with
  | some pt =>
    let inTop := env.indicators.checkInSharpeTopK sym (env.dateOf idx)
      (env.countryOf sym) pt.2
    let c := if inTop then 0 else s.sharpeFailCounter sym + 1
    let s2 := { s with sharpeFailCounter := setCounter s.sharpeFailCounter sym c }
    if pt.1 ≤ c then (s2, some "sharpe_fail") else (s2, none)
  | none => (s, none)

/-- Sell rule growth_fail: mean growth over the last `days` observations below
the threshold (no counter). -/
def sellRuleGrowthFail (env : Env) (cfg : Config) (sym : String) (idx : ℕ)
    (s : EngineState) : EngineState × Option String :=
  match cfg.sellConditions.growthFail with
  | some dt =>
    let vals := (List.range dt.1).filterMap (fun (i : ℕ) =>
      if (i : ℤ) ≤ (idx : ℤ) then env.indicators.getGrowth sym (idx - i) else none)
    if vals.isEmpty then (s, none)
    else if vals.sum / (vals.length : ℚ) < dt.2 then (s, some "growth_fail")
    else (s, none)
  | none => (s, none)

/-- Sell rule not_selected: counts consecutive days outside the day's buy
candidate set. -/
def sellRuleNotSelected (cfg : Config) (sym : String) (selected : List String)
    (s : EngineState) : EngineState × Option String :=
  match cfg.sellConditions.notSelected with
  | some periods =>
    let c := if selected.contains sym then 0 else s.notSelectedCounter sym + 1
    let s2 := { s with notSelectedCounter := setCounter s.notSelectedCounter sym c }
    if periods ≤ c then (s2, some "not_selected") else (s2, none)
  | none => (s, none)

/-- Sell rule drawdown: decline from the reference price (buy price, or the
tracked peak when from_highest) at or past the threshold. -/
def sellRuleDrawdown (env : Env) (cfg : Config) (sym : String) (idx : ℕ)
    (pos : Position) (s : EngineState) : EngineState × Option String :=
  match cfg.sellConditions.drawdown with
  | some tf =>
    let price := (env.close idx sym).getD pos.buyPrice.amount
    let ref := if tf.2 then
        (if pos.peakPrice = 0 then pos.buyPrice.amount else pos.peakPrice)
      else pos.buyPrice.amount
    if 0 < ref ∧ tf.1 ≤ (ref - price) / ref then (s, some "drawdown") else (s, none)
  | none => (s, none)

/-- Sell rule weakness: counts consecutive days on which both the score rank
position and the growth rank position are missing or past rank_k. -/
def sellRuleWeakness (env : Env) (cfg : Config) (sym : String) (idx : ℕ)
    (s : EngineState) : EngineState × Option String :=
  match cfg.sellConditions.weakness with
  | some kp =>
    let date := env.dateOf idx
    let country := env.countryOf sym
    let sp := env.indicators.getSharpeRankPosition sym date country
    let gp := env.indicators.getGrowthRankPosition sym date country
    let sharpeBad := sp < 0 ∨ (kp.1 : ℤ) ≤ sp
    let growthBad := gp < 0 ∨ (kp.1 : ℤ) ≤ gp
    let c := if sharpeBad ∧ growthBad then s.weaknessCounter sym + 1 else 0
    let s2 := { s with weaknessCounter := setCounter s.weaknessCounter sym c }
    if kp.2 ≤ c then (s2, some "weakness") else (s2, none)
  | none => (s, none)

/-- _check_sell: evaluate the enabled sell rules in the source's fixed order;
the first firing rule supplies the reason. -/
def checkSell (env : Env) (cfg : Config) (sym : String) (idx : ℕ)
    (selected : List String) (pos : Position) (s : EngineState) :
    EngineState × Option String :=
  orElseSell (sellRuleSharpeFail env cfg sym idx s) (fun s1 =>
    orElseSell (sellRuleGrowthFail env cfg sym idx s1) (fun s2 =>
      orElseSell (sellRuleNotSelected cfg sym selected s2) (fun s3 =>
        orElseSell (sellRuleDrawdown env cfg sym idx pos s3) (fun s4 =>
          sellRuleWeakness env cfg sym idx s4))))

/-- _sell: liquidate one position at the day's price, convert to TWD, charge
the market fee, realize profit against the cost basis, credit cash, drop the
position, reset its counters and append the sell trade. -/
def sellOne (env : Env) (idx : ℕ) (date : ℤ) (sym reason : String)
    (s : EngineState) : EngineState :=
  match s.positions.find? (fun p => p.symbol == sym) with
  | none => s
  | some pos =>
    let priceRaw := (env.close idx sym).getD pos.avgCost.amount
    let isUs := pos.country ≠ "TW"
    let priceMoney := if isUs then usd priceRaw else twd priceRaw
    let amountOriginal :=
      if isUs then usd (pos.shares * priceRaw) else twd (pos.shares * priceRaw)
    let amountTwd :=
      (if isUs then env.fx.toTwd amountOriginal date else amountOriginal).amount
    let feeCfg := if isUs then feesUs else feesTw
    let fee := max (amountTwd * feeCfg.rate) feeCfg.minFee
    let profit := amountTwd - pos.costBasis - fee
    { s with
      cash := s.cash + amountTwd - fee
      positions := s.positions.filter (fun p => !(p.symbol == sym))
      sharpeFailCounter := setCounter s.sharpeFailCounter sym 0
      growthFailCounter := setCounter s.growthFailCounter sym 0
      notSelectedCounter := setCounter s.notSelectedCounter sym 0
      weaknessCounter := setCounter s.weaknessCounter sym 0
      trades := s.trades ++ [⟨date, sym, TradeType.sell, pos.shares, priceMoney,
        amountOriginal, amountTwd, fee, reason, profit⟩] }

/-- Sell-evaluation scan step of _process_sells: thread the counter state
through _check_sell and collect the firing (symbol, reason) pairs. -/
def sellScanStep (env : Env) (cfg : Config) (idx : ℕ) (selected : List String)
    (acc : EngineState × List (String × String)) (pos : Position) :
    EngineState × List (String × String) :=
  let r := checkSell env cfg pos.symbol idx selected pos acc.1
  match r.2 with
  | some reason => (r.1, acc.2 ++ [(pos.symbol, reason)])
  | none => (r.1, acc.2)

/-- _process_sells: compute the day's candidate set once, evaluate sell rules
over a snapshot of the open positions (threading the counter state), then
execute the firing sells in order. -/
def processSells (env : Env) (cfg : Config) (idx : ℕ) (date : ℤ)
    (s : EngineState) : EngineState :=
  let selected := selectStocks env cfg idx
  let scan := s.positions.foldl (sellScanStep env cfg idx selected) (s, [])
  scan.2.foldl (fun st pr => sellOne env idx date pr.1 pr.2 st) scan.1

/-- Integer shares of _buy_stocks: the per-stock TWD budget converted to the
instrument's native currency by the FX service, truncated after division by
the price. -/
def buySharesOf (env : Env) (date : ℤ) (amountPerStock priceRaw : ℚ)
    (sym : String) : ℤ :=
  if countryOfInfo env.stockInfo sym ≠ "TW" then
    pyTrunc ((env.fx.toUsd (twd amountPerStock) date).amount / priceRaw)
  else pyTrunc (amountPerStock / priceRaw)

/-- Price of one share in its native currency. -/
def buyPriceMoneyOf (env : Env) (priceRaw : ℚ) (sym : String) : Money :=
  if countryOfInfo env.stockInfo sym ≠ "TW" then usd priceRaw else twd priceRaw

/-- Trade amount in the instrument's native currency. -/
def buyAmountOriginalOf (env : Env) (priceRaw : ℚ) (sym : String)
    (shares : ℤ) : Money :=
  if countryOfInfo env.stockInfo sym ≠ "TW" then usd (shares * priceRaw)
  else twd (shares * priceRaw)

/-- Trade amount converted to TWD at the day's rate for a non-TW symbol. -/
def buyAmountTwdOf (env : Env) (date : ℤ) (priceRaw : ℚ) (sym : String)
    (shares : ℤ) : ℚ :=
  (if countryOfInfo env.stockInfo sym ≠ "TW" then
    env.fx.toTwd (buyAmountOriginalOf env priceRaw sym shares) date
   else buyAmountOriginalOf env priceRaw sym shares).amount

/-- Fee of a trade: max(amount in TWD times the market rate, the market
minimum fee), with the US schedule for every non-TW symbol. -/
def buyFeeOf (env : Env) (sym : String) (amountTwd : ℚ) : ℚ :=
  let feeCfg := if countryOfInfo env.stockInfo sym ≠ "TW" then feesUs else feesTw
  max (amountTwd * feeCfg.rate) feeCfg.minFee

/-- One candidate step of _buy_stocks: skip a held symbol, a missing or
non-positive price, a zero share count, or a total cost beyond available
cash; otherwise debit cash, append the position and record the buy trade. -/
def buyStep (env : Env) (idx : ℕ) (date : ℤ) (amountPerStock : ℚ)
    (s : EngineState) (sym : String) : EngineState :=
  if heldSymbol s sym then s
  else
    match env.close idx sym with
    | none => s
    | some priceRaw =>
      if priceRaw ≤ 0 then s
      else
        let shares := buySharesOf env date amountPerStock priceRaw sym
        if shares ≤ 0 then s
        else
          let priceMoney := buyPriceMoneyOf env priceRaw sym
          let amountTwd := buyAmountTwdOf env date priceRaw sym shares
          let fee := buyFeeOf env sym amountTwd
          let totalCost := amountTwd + fee
          if s.cash < totalCost then s
          else
            { s with
              cash := s.cash - totalCost
              positions := s.positions ++
                [⟨sym, shares, priceMoney, totalCost, date, priceMoney, priceRaw,
                  countryOfInfo env.stockInfo sym⟩]
              trades := s.trades ++ [⟨date, sym, TradeType.buy, shares, priceMoney,
                buyAmountOriginalOf env priceRaw sym shares, amountTwd, fee,
                "buy", 0⟩] }

/-- _buy_stocks: iterate the candidates, stopping the whole loop as soon as
cash drops below half the per-stock amount. -/
def buyStocks (env : Env) (idx : ℕ) (date : ℤ) (amountPerStock : ℚ) :
    EngineState → List String → EngineState
  | s, [] => s
  | s, sym :: rest =>
    if s.cash < amountPerStock * (1 / 2) then s
    else buyStocks env idx date amountPerStock
      (buyStep env idx date amountPerStock s sym) rest

/-- Day's buy candidates not already held. -/
def newCandidates (env : Env) (cfg : Config) (idx : ℕ) (s : EngineState) :
    List String :=
  (selectStocks env cfg idx).filter (fun sym => !heldSymbol s sym)

/-- Open position slots left. -/
def openSlots (cfg : Config) (s : EngineState) : ℤ :=
  (cfg.maxPositions : ℤ) - s.positions.length

/-- Mean of the defined scores of a ticker list, 0 when none (helper of the
concentrated and delayed strategies). -/
def avgSharpeOf (env : Env) (idx : ℕ) (ts : List String) : ℚ :=
  let vals := ts.filterMap (fun t => env.indicators.getSharpe t idx)
  if vals.isEmpty then 0 else vals.sum / (vals.length : ℚ)

/-- Country rankings consulted by the concentrated/delayed strategies for the
configured market. -/
def marketRanking (env : Env) (cfg : Config) (date : ℤ) (country : String)
    (tag : String) : List String :=
  if cfg.market = "global" ∨ cfg.market = tag then
    env.indicators.sharpeRankByCountry date country
  else []

/-- _process_rebalance: dispatch on the rebalance strategy over the day's new
candidates, capped by the open slots. -/
def processRebalance (env : Env) (cfg : Config) (idx : ℕ) (date : ℤ)
    (s : EngineState) : EngineState :=
  let toBuy0 := newCandidates env cfg idx s
  if toBuy0.isEmpty then s
  else
    let slots := openSlots cfg s
    if slots ≤ 0 then s
    else
      let toBuy := toBuy0.take slots.toNat
      match cfg.rebalanceStrategy with
      | .batch ratio =>
        let investAmount := s.cash * ratio
        let amountPerStock :=
          if toBuy.isEmpty then 0 else investAmount / (toBuy.length : ℚ)
        buyStocks env idx date amountPerStock s toBuy
      | .immediate => buyStocks env idx date cfg.amountPerStock s toBuy
      | .concentrated topK leadMargin =>
        let usRanking := marketRanking env cfg date "US" "us"
        let twRanking := marketRanking env cfg date "TW" "tw"
        let topKTickers := usRanking.take topK ++ twRanking.take topK
        let nextKTickers :=
          (usRanking.drop topK).take topK ++ (twRanking.drop topK).take topK
        let topAvg := avgSharpeOf env idx topKTickers
        let nextAvg := avgSharpeOf env idx nextKTickers
        let shouldInvest :=
          if nextAvg ≤ 0 ∧ 0 < topAvg then true
          else if 0 < nextAvg then decide (leadMargin ≤ (topAvg - nextAvg) / |nextAvg|)
          else false
        if shouldInvest then
          buyStocks env idx date cfg.amountPerStock s (toBuy.take topK)
        else s
      | .delayed topN sharpeThreshold =>
        let vals :=
          ((marketRanking env cfg date "US" "us").take topN).filterMap
            (fun t => env.indicators.getSharpe t idx) ++
          ((marketRanking env cfg date "TW" "tw").take topN).filterMap
            (fun t => env.indicators.getSharpe t idx)
        let avg := if vals.isEmpty then 0 else vals.sum / (vals.length : ℚ)
        if avg ≤ sharpeThreshold then s
        else buyStocks env idx date cfg.amountPerStock s toBuy
      | .noRebalance => s

/-- _update_peaks: raise each position's tracked peak to the day's price when
it is higher. -/
def updatePeaks (env : Env) (idx : ℕ) (s : EngineState) : EngineState :=
  { s with positions := s.positions.map (fun pos =>
      let price := (env.close idx pos.symbol).getD pos.peakPrice
      if pos.peakPrice < price then { pos with peakPrice := price } else pos) }

/-- Market value of one position in TWD: shares times the day's price,
converted at the day's FX rate for a non-TW position. -/
def marketValueTwd (env : Env) (idx : ℕ) (pos : Position) : ℚ :=
  let priceRaw := (env.close idx pos.symbol).getD pos.avgCost.amount
  (if pos.country ≠ "TW" then env.fx.toTwd (usd (pos.shares * priceRaw)) (env.dateOf idx)
   else twd (pos.shares * priceRaw)).amount

/-- _calc_equity_with_holdings: total equity (cash plus market values),
holdings value and the per-holding snapshot. -/
def calcEquityWithHoldings (env : Env) (idx : ℕ) (s : EngineState) :
    ℚ × ℚ × List Holding :=
  s.positions.foldl (fun acc pos =>
    let mv := marketValueTwd env idx pos
    (acc.1 + mv, acc.2.1 + mv, acc.2.2 ++ [⟨pos.symbol, pos.shares, mv⟩]))
    (s.cash, 0, [])

/-- _calc_equity: cash plus TWD market values of the open positions. -/
def calcEquity (env : Env) (idx : ℕ) (s : EngineState) : ℚ :=
  s.positions.foldl (fun e pos => e + marketValueTwd env idx pos) s.cash

/-- _process_day: update peaks, evaluate sells, run the rebalance/buy step
(every day, the strategy itself decides whether to buy), then append the
equity snapshot of the post-trade state. -/
def processDay (env : Env) (cfg : Config) (s : EngineState) (idx : ℕ) :
    EngineState :=
  let date := env.dateOf idx
  let s1 := updatePeaks env idx s
  let s2 := processSells env cfg idx date s1
  let s3 := processRebalance env cfg idx date s2
  let eh := calcEquityWithHoldings env idx s3
  { s3 with equityCurve :=
      s3.equityCurve ++ [⟨date, eh.1, s3.cash, eh.2.1, eh.2.2⟩] }

/-- State after the trading phases of one day (peak update, sells, rebalance)
and before the equity snapshot is appended. -/
def dayTradeState (env : Env) (cfg : Config) (idx : ℕ) (s : EngineState) :
    EngineState :=
  processRebalance env cfg idx (env.dateOf idx)
    (processSells env cfg idx (env.dateOf idx) (updatePeaks env idx s))

/-- _is_rebalance_day: reads rebalance_freq; the source defines it on the
engine but run/_process_day never invoke it. -/
def isRebalanceDay (env : Env) (cfg : Config) (idx : ℕ) : Bool :=
  if cfg.rebalanceFreq = "daily" then true
  else if cfg.rebalanceFreq = "weekly" then
    if 0 < idx then
      decide (env.weekOf (env.dateOf idx) ≠ env.weekOf (env.dateOf (idx - 1)))
    else true
  else if cfg.rebalanceFreq = "monthly" then
    if 0 < idx then
      decide (env.monthOf (env.dateOf idx) ≠ env.monthOf (env.dateOf (idx - 1)))
    else true
  else false

/-- numpy searchsorted with side left on a sorted index: count of entries
strictly below the key. -/
def ssLeft (l : List ℤ) (x : ℤ) : ℕ := l.countP (fun d => decide (d < x))

/-- numpy searchsorted with side right on a sorted index: count of entries at
or below the key. -/
def ssRight (l : List ℤ) (x : ℤ) : ℕ := l.countP (fun d => decide (d ≤ x))

/-- Fresh engine state of BacktestEngine.__init__. -/
def initState (cfg : Config) : EngineState :=
  ⟨cfg.initialCapital, [], [], [], fun _ => 0, fun _ => 0, fun _ => 0, fun _ => 0⟩

/-- Day indices the run loop visits: range(start_idx, end_idx + 1) with the
endpoints resolved by searchsorted against the close index. -/
def runDayIndices (dates : List ℤ) (startDate endDate : ℤ) : List ℕ :=
  let startIdx := ssLeft dates startDate
  let endIdx : ℤ := (ssRight dates endDate : ℤ) - 1
  List.range' startIdx (endIdx + 1 - startIdx).toNat

/-- BacktestEngine.run up to the final state: fold _process_day over the
resolved day indices starting from the fresh state. -/
def runEngine (env : Env) (cfg : Config) (startDate endDate : ℤ) : EngineState :=
  (runDayIndices env.dates startDate endDate).foldl (processDay env cfg) (initState cfg)

/-- State the run has actually reached after its first k visited days. -/
def runStateUpTo (env : Env) (cfg : Config) (startDate endDate : ℤ) (k : ℕ) :
    EngineState :=
  ((runDayIndices env.dates startDate endDate).take k).foldl
    (processDay env cfg) (initState cfg)

/-- Equity point _process_day appends for day idx when entered in state s:
the snapshot of the day's post-trade state, its equity written as cash plus
the sum of the open positions' TWD market values. -/
def daySnapshot (env : Env) (cfg : Config) (idx : ℕ) (s : EngineState) :
    EquityPoint :=
  ⟨env.dateOf idx,
   (dayTradeState env cfg idx s).cash +
     ((dayTradeState env cfg idx s).positions.map (marketValueTwd env idx)).sum,
   (dayTradeState env cfg idx s).cash,
   (calcEquityWithHoldings env idx (dayTradeState env cfg idx s)).2.1,
   (calcEquityWithHoldings env idx (dayTradeState env cfg idx s)).2.2⟩

/-- Snapshots appended over a list of day indices, each taken from the state
the loop has actually reached before that day. -/
def daySnapshots (env : Env) (cfg : Config) :
    EngineState → List ℕ → List EquityPoint
  | _, [] => []
  | s, idx :: rest =>
    daySnapshot env cfg idx s ::
      daySnapshots env cfg (processDay env cfg s idx) rest

/-- Computable fields of BacktestResult; annualized return and the equity
Sharpe ratio involve real powers and square roots and are left out of the
embedding (no claim concerns them). -/
structure BacktestResult where
  initialCapital : ℚ
  finalEquity : ℚ
  totalReturn : ℚ
  totalTrades : ℕ
  winTrades : ℕ
  lossTrades : ℕ
  winRate : ℚ
  maxDrawdown : ℚ

/-- One step of the source's max-drawdown fold: raise the running peak, then
the drawdown against it, keeping the running maximum drawdown. -/
def maxDrawdownStep (acc : ℚ × ℚ) (eq : ℚ) : ℚ × ℚ :=
  let maxEq := if acc.1 < eq then eq else acc.1
  let dd := if 0 < maxEq then (maxEq - eq) / maxEq else 0
  (maxEq, if acc.2 < dd then dd else acc.2)

/-- Max drawdown of _calculate_result: the fold over the equity values with
the running peak seeded by the initial capital. -/
def maxDrawdown (initial : ℚ) (eqs : List ℚ) : ℚ :=
  (eqs.foldl maxDrawdownStep (initial, 0)).2

/-- _calculate_result restricted to its computable fields. -/
def calculateResult (env : Env) (cfg : Config) (s : EngineState)
    (endIdx : ℕ) : BacktestResult :=
  let initial := cfg.initialCapital
  let final := calcEquity env endIdx s
  let sells := s.trades.filter (fun t => t.side == TradeType.sell)
  let winTrades := (sells.filter (fun t => decide (0 < t.profit))).length
  let lossTrades := (sells.filter (fun t => decide (t.profit ≤ 0))).length
  ⟨initial, final, (final - initial) / initial, s.trades.length, winTrades,
   lossTrades,
   (if 0 < sells.length then (winTrades : ℚ) / (sells.length : ℚ) else 0),
   maxDrawdown initial (s.equityCurve.map EquityPoint.equity)⟩

/-- resolve_date_range (backtest/runner.py): clamp the configured end date
down and the start date up to the available index, failing when either falls
outside all data or the resolved start is not before the resolved end. -/
def resolveDateRange (startRaw endRaw : ℤ) (dates : List ℤ) :
    Except String (ℤ × ℤ) :=
  let endIdx : ℤ := (ssRight dates endRaw : ℤ) - 1
  if endIdx < 0 then .error "end date before all available data"
  else
    let endDt := dates.getD endIdx.toNat 0
    let startIdx := ssLeft dates startRaw
    if dates.length ≤ startIdx then .error "start date after all available data"
    else
      let startDt := dates.getD startIdx 0
      if endDt ≤ startDt then .error "start date must be before end date"
      else .ok (startDt, endDt)

/-- run_backtest (backtest/runner.py), the date-resolution and engine-run
steps: the range is resolved before the simulation loop ever starts. -/
def runBacktest (env : Env) (cfg : Config) (startRaw endRaw : ℤ) :
    Except String EngineState :=
  match resolveDateRange startRaw endRaw env.dates with
  | .error e => .error e
  | .ok se => .ok (runEngine env cfg se.1 se.2)

/-- Drawdown list named by the spec's words: pointwise
(runningPeak - equity) / runningPeak along the curve, the peak accumulating
from a given seed. -/
def ddListFrom (peak : ℚ) : List ℚ → List ℚ
  | [] => []
  | e :: t =>
    let m := max peak e
    (if 0 < m then (m - e) / m else 0) :: ddListFrom m t

/-- Spec-side max drawdown with the peak seeded by a given value: the maximum
of the pointwise drawdowns (0 for an empty curve). -/
def specMaxDrawdownFrom (initial : ℚ) (eqs : List ℚ) : ℚ :=
  (ddListFrom initial eqs).foldl max 0

/-- Spec-side max drawdown read literally over the equity curve alone: the
running peak starts at the first equity value. -/
def specMaxDrawdownCurve (eqs : List ℚ) : ℚ :=
  match eqs with
  | [] => 0
  | e :: _ => specMaxDrawdownFrom e eqs

/-- Indicator oracle that reports no data, for concrete test environments. -/
def indicatorsNone : Indicators :=
  ⟨fun _ _ => none, fun _ _ => none, fun _ _ _ _ => false, fun _ _ _ _ => false,
   fun _ _ _ _ => false, fun _ _ _ _ => false, fun _ _ _ => -1, fun _ _ _ => -1,
   fun _ _ => []⟩

/-- Buy-rule configuration with every rule disabled. -/
def buyCondOff : BuyConditions := ⟨none, none, none, none, none, none, false⟩

/-- Sell-rule configuration with every rule disabled. -/
def sellCondOff : SellConditions := ⟨none, none, none, none, none⟩

/-- One-day empty-universe environment for concrete runs. -/
def envTriv : Env :=
  ⟨[0], [], fun _ _ => none, fun _ => none, ⟨[]⟩, indicatorsNone,
   fun _ => 0, fun _ => 0⟩

/-- Configuration with initial capital 2 used against a curve that sits at 1. -/
def cfgC3 : Config :=
  ⟨2, 1, 10, "weekly", "us", buyCondOff, sellCondOff, RebalanceStrategy.noRebalance⟩

/-- State whose single equity point (value 1) lies below the initial capital. -/
def stateC3 : EngineState :=
  ⟨1, [], [], [⟨0, 1, 1, 0, []⟩], fun _ => 0, fun _ => 0, fun _ => 0, fun _ => 0⟩

/-- Configuration with initial capital 1 for the monotone-curve instance. -/
def cfgC3W : Config :=
  ⟨1, 1, 10, "weekly", "us", buyCondOff, sellCondOff, RebalanceStrategy.noRebalance⟩

/-- State with the non-decreasing curve 1, 2 starting at the initial capital. -/
def stateC3W : EngineState :=
  ⟨2, [], [], [⟨0, 1, 1, 0, []⟩, ⟨1, 2, 2, 0, []⟩],
   fun _ => 0, fun _ => 0, fun _ => 0, fun _ => 0⟩

/-- Metadata of a tradable US technology stock. -/
def infoTech : StockInfo := ⟨"US", "Tech"⟩

/-- Two-candidate environment for the batch-budget instance. -/
def envC6 : Env :=
  ⟨[0], ["A", "B"], fun _ _ => some 10, fun _ => some infoTech, ⟨[]⟩,
   indicatorsNone, fun _ => 0, fun _ => 0⟩

/-- Batch strategy configuration with batch_ratio one half. -/
def cfgC6 : Config :=
  ⟨100, 10, 10, "weekly", "us", buyCondOff, sellCondOff,
   RebalanceStrategy.batch (1 / 2)⟩

/-- One-symbol TW environment for the buy-execution instance. -/
def envC5 : Env :=
  ⟨[0], ["A"], fun _ _ => some 30, fun _ => some ⟨"TW", "Tech"⟩, ⟨[]⟩,
   indicatorsNone, fun _ => 0, fun _ => 0⟩

/-- Three-day environment for the date-range instance. -/
def envC4 : Env :=
  ⟨[0, 1, 2], [], fun _ _ => none, fun _ => none, ⟨[]⟩, indicatorsNone,
   fun _ => 0, fun _ => 0⟩

/-- Plain configuration reused by the concrete run instances. -/
def cfgTriv : Config :=
  ⟨100, 10, 10, "weekly", "us", buyCondOff, sellCondOff,
   RebalanceStrategy.noRebalance⟩

/-- Two-key FX table (rates 31 at date 10 and 33 at date 20) for the rate
lookup instance. -/
def fxW : FX := ⟨[(10, 31), (20, 33)]⟩

/-- Score row with a tie and a strictly smaller value for the ranking
instance. -/
def rowC8 : List (Option ℚ) := [some 3, none, some 1, some 3]

/-- One-row score matrix for the ranking instance. -/
def matrixC8 : List (List (Option ℚ)) := [rowC8]

/-- C2 counterexample: dividing a Money value by the plain scalar 0 does not
succeed; Python raises ZeroDivisionError, so "dividing any Money by a plain
scalar always succeeds" fails at the scalar 0. -/
theorem c2_counterexample :
    Money.divScalar (twd 1) 0 = Except.error MoneyError.zeroDivision := rfl

/-- C2 (amended): for Money values of the same currency, addition and
subtraction succeed and (a + b) - b equals a under the source's tolerance
equality; for different currencies both raise CurrencyMismatchError;
multiplying by any plain scalar succeeds preserving the currency, and
dividing by any nonzero plain scalar succeeds preserving the currency. -/
theorem c2_money_roundtrip (a b : Money) (n : ℚ) :
    (a.currency = b.currency →
      ∃ c, a.add b = Except.ok c ∧
        ∃ d, c.sub b = Except.ok d ∧ d.eqTol a = true) ∧
    (a.currency ≠ b.currency →
      a.add b = Except.error (MoneyError.currencyMismatch a.currency b.currency "+") ∧
      a.sub b = Except.error (MoneyError.currencyMismatch a.currency b.currency "-")) ∧
    (a.mulScalar n).currency = a.currency ∧
    (n ≠ 0 → ∃ c, a.divScalar n = Except.ok c ∧ c.currency = a.currency) := by
  refine ⟨?_, ?_, rfl, ?_⟩
  · intro h
    refine ⟨⟨a.amount + b.amount, a.currency⟩, by simp [Money.add, h],
            ⟨a.amount + b.amount - b.amount, a.currency⟩, by simp [Money.sub, h], ?_⟩
    have h2 : a.amount + b.amount - b.amount - a.amount = 0 := by ring
    simp [Money.eqTol, h2]
  · intro h
    exact ⟨by simp [Money.add, h], by simp [Money.sub, h]⟩
  · intro h
    exact ⟨⟨a.amount / n, a.currency⟩, by simp [Money.divScalar, h], rfl⟩

/-- C2 witness: the amended statement evaluated at concrete inputs, the
same-currency parts at TWD 2 and TWD 3 with scalar 5, the mismatch part at
USD 2 against TWD 3. -/
theorem c2_money_roundtrip_witness :
    (∃ c, (twd 2).add (twd 3) = Except.ok c ∧
      ∃ d, c.sub (twd 3) = Except.ok d ∧ d.eqTol (twd 2) = true) ∧
    ((usd 2).add (twd 3) =
      Except.error (MoneyError.currencyMismatch Currency.USD Currency.TWD "+") ∧
     (usd 2).sub (twd 3) =
      Except.error (MoneyError.currencyMismatch Currency.USD Currency.TWD "-")) ∧
    ((twd 2).mulScalar 5).currency = Currency.TWD ∧
    (∃ c, (twd 2).divScalar 5 = Except.ok c ∧ c.currency = Currency.TWD) :=
  ⟨(c2_money_roundtrip (twd 2) (twd 3) 5).1 rfl,
   (c2_money_roundtrip (usd 2) (twd 3) 5).2.1 (by decide),
   (c2_money_roundtrip (twd 2) (twd 3) 5).2.2.1,
   (c2_money_roundtrip (twd 2) (twd 3) 5).2.2.2 (by norm_num)⟩

/-- Conditional assignment against a strict test equals the lattice max. -/
theorem ite_lt_eq_max (m e : ℚ) : (if m < e then e else m) = max m e := by
  rcases lt_or_le m e with h | h
  · simp [h, max_eq_right h.le]
  · simp [not_lt.2 h, max_eq_left h]

/-- The source's max-drawdown fold computes the running maximum of the
pointwise drawdown list. -/
theorem foldl_maxDrawdownStep_eq (l : List ℚ) :
    ∀ m d : ℚ, (l.foldl maxDrawdownStep (m, d)).2 = (ddListFrom m l).foldl max d := by
  induction l with
  | nil => intro m d; rfl
  | cons e t ih =>
    intro m d
    have hstep : maxDrawdownStep (m, d) e =
        (max m e, max d (if 0 < max m e then (max m e - e) / max m e else 0)) := by
      simp only [maxDrawdownStep]
      rw [ite_lt_eq_max m e, ite_lt_eq_max d _]
    rw [List.foldl_cons, hstep, ih]
    simp [ddListFrom]

/-- On a non-decreasing curve whose head is at least the peak seed, the
max-drawdown fold never raises its second component. -/
theorem foldl_maxDrawdownStep_monotone (l : List ℚ) :
    ∀ m d : ℚ, 0 ≤ d → List.Chain' (· ≤ ·) l →
      (∀ x, l.head? = some x → m ≤ x) →
      (l.foldl maxDrawdownStep (m, d)).2 = d := by
  induction l with
  | nil => intro m d _ _ _; rfl
  | cons e t ih =>
    intro m d hd hchain hhead
    have hme : m ≤ e := hhead e rfl
    have hstep : maxDrawdownStep (m, d) e = (e, d) := by
      simp only [maxDrawdownStep, ite_lt_eq_max]
      rw [max_eq_right hme]
      have h0 : (if 0 < e then (e - e) / e else 0) = 0 := by
        split <;> simp
      rw [h0, max_eq_left hd]
    rw [List.foldl_cons, hstep]
    have hct := List.chain'_cons'.mp hchain
    exact ih e d hd hct.2 hct.1

/-- C3 counterexample: with initial capital 2 and the monotone one-point
equity curve at 1, the code's max_drawdown is one half, while the maximum of
(runningPeak - equity)/runningPeak over the curve alone is 0: the claim's
"equals 0 whenever the curve is monotonically non-decreasing" fails because
the running peak is seeded with the initial capital. -/
theorem c3_counterexample :
    (calculateResult envTriv cfgC3 stateC3 0).maxDrawdown = 1 / 2 ∧
    List.Chain' (· ≤ ·) (stateC3.equityCurve.map EquityPoint.equity) ∧
    specMaxDrawdownCurve (stateC3.equityCurve.map EquityPoint.equity) = 0 ∧
    (1 / 2 : ℚ) ≠ 0 := by
  refine ⟨?_, ?_, ?_, by norm_num⟩
  · show maxDrawdown cfgC3.initialCapital
      (stateC3.equityCurve.map EquityPoint.equity) = 1 / 2
    norm_num [maxDrawdown, maxDrawdownStep, stateC3, cfgC3]
  · simp [stateC3]
  · norm_num [specMaxDrawdownCurve, specMaxDrawdownFrom, ddListFrom, stateC3]

/-- C3 (amended): the max_drawdown of BacktestResult is the maximum over the
equity curve of (runningPeak - equity)/runningPeak with the running peak
seeded by the initial capital, and it equals 0 whenever the equity curve is
monotonically non-decreasing and starts at or above the initial capital. -/
theorem c3_max_drawdown (env : Env) (cfg : Config) (s : EngineState) (endIdx : ℕ) :
    (calculateResult env cfg s endIdx).maxDrawdown =
      specMaxDrawdownFrom cfg.initialCapital (s.equityCurve.map EquityPoint.equity) ∧
    (List.Chain' (· ≤ ·) (s.equityCurve.map EquityPoint.equity) →
      (∀ x, (s.equityCurve.map EquityPoint.equity).head? = some x →
        cfg.initialCapital ≤ x) →
      (calculateResult env cfg s endIdx).maxDrawdown = 0) := by
  constructor
  · exact foldl_maxDrawdownStep_eq (s.equityCurve.map EquityPoint.equity)
      cfg.initialCapital 0
  · intro hchain hhead
    exact foldl_maxDrawdownStep_monotone (s.equityCurve.map EquityPoint.equity)
      cfg.initialCapital 0 le_rfl hchain hhead

/-- C3 witness: the amended statement at the non-decreasing curve 1, 2 with
initial capital 1. -/
theorem c3_max_drawdown_witness :
    (calculateResult envTriv cfgC3W stateC3W 0).maxDrawdown =
      specMaxDrawdownFrom cfgC3W.initialCapital
        (stateC3W.equityCurve.map EquityPoint.equity) ∧
    (calculateResult envTriv cfgC3W stateC3W 0).maxDrawdown = 0 :=
  ⟨(c3_max_drawdown envTriv cfgC3W stateC3W 0).1,
   (c3_max_drawdown envTriv cfgC3W stateC3W 0).2 (by norm_num [stateC3W])
     (by intro x hx; simp [stateC3W] at hx; rw [← hx]; norm_num [cfgC3W])⟩

/-- C6: under the batch rebalance strategy, the per-stock buy budget of a day
is the current cash times batch_ratio divided by the number of new candidates
bought that day (the day's new-candidate buy list, capped by the open slots);
in particular with batch_ratio one half and two candidates each budget is
exactly one quarter of the available cash. -/
theorem c6_batch_budget (env : Env) (cfg : Config) (idx : ℕ) (date : ℤ)
    (s : EngineState) (ratio : ℚ)
    (hstrat : cfg.rebalanceStrategy = RebalanceStrategy.batch ratio)
    (hne : newCandidates env cfg idx s ≠ [])
    (hslots : 0 < openSlots cfg s) :
    processRebalance env cfg idx date s =
      buyStocks env idx date
        (s.cash * ratio /
          (((newCandidates env cfg idx s).take (openSlots cfg s).toNat).length : ℚ))
        s ((newCandidates env cfg idx s).take (openSlots cfg s).toNat) ∧
    (ratio = 1 / 2 →
      ((newCandidates env cfg idx s).take (openSlots cfg s).toNat).length = 2 →
      s.cash * ratio /
        (((newCandidates env cfg idx s).take (openSlots cfg s).toNat).length : ℚ) =
        s.cash / 4) := by
  have hn : 0 < (openSlots cfg s).toNat := by omega
  have htake : (newCandidates env cfg idx s).take (openSlots cfg s).toNat ≠ [] := by
    rw [Ne, List.take_eq_nil_iff]
    push_neg
    exact ⟨by omega, hne⟩
  constructor
  · simp only [processRebalance, hstrat]
    rw [if_neg (by simp [List.isEmpty_iff, hne]),
        if_neg (by omega),
        if_neg (by simp [List.isEmpty_iff, htake])]
  · intro h1 h2
    rw [h1, h2]
    push_cast
    ring

/-- C6 witness: with two eligible candidates, batch_ratio one half and empty
holdings, the rebalance step buys with a per-stock budget of cash over four. -/
theorem c6_batch_budget_witness :
    newCandidates envC6 cfgC6 0 (initState cfgC6) ≠ [] ∧
    0 < openSlots cfgC6 (initState cfgC6) ∧
    (processRebalance envC6 cfgC6 0 0 (initState cfgC6) =
      buyStocks envC6 0 0
        ((initState cfgC6).cash * (1 / 2) /
          (((newCandidates envC6 cfgC6 0 (initState cfgC6)).take
            (openSlots cfgC6 (initState cfgC6)).toNat).length : ℚ))
        (initState cfgC6)
        ((newCandidates envC6 cfgC6 0 (initState cfgC6)).take
          (openSlots cfgC6 (initState cfgC6)).toNat) ∧
     ((1 : ℚ) / 2 = 1 / 2 →
      ((newCandidates envC6 cfgC6 0 (initState cfgC6)).take
        (openSlots cfgC6 (initState cfgC6)).toNat).length = 2 →
      (initState cfgC6).cash * (1 / 2) /
        (((newCandidates envC6 cfgC6 0 (initState cfgC6)).take
          (openSlots cfgC6 (initState cfgC6)).toNat).length : ℚ) =
        (initState cfgC6).cash / 4)) :=
  ⟨by decide, by decide,
   c6_batch_budget envC6 cfgC6 0 0 (initState cfgC6) (1 / 2) rfl
     (by decide) (by decide)⟩

/-- C9: the growth-streak check cuts the country ranking at
max(1, ceil(len * percentile / 100)), so at percentile 100 the cutoff is the
whole list and the check never filters out a present symbol: a symbol that is
in its country's growth ranking on each of the last `days` dates (with the
day index at least days - 1 and inside the date range) passes
check_growth_streak with percentile 100. -/
theorem c9_growth_streak_percentile_100 (dates : List ℤ)
    (stockInfo : String → Option StockInfo)
    (growthRank : ℤ → String → List String) (sym : String) (idx days : ℕ)
    (hidx : idx < dates.length) (hdays : days - 1 ≤ idx)
    (hmem : ∀ i < days, ∀ d, dates[idx - i]? = some d →
      sym ∈ growthRank d (countryOfInfo stockInfo sym)) :
    checkGrowthStreak dates stockInfo growthRank sym idx days 100 = true := by
  unfold checkGrowthStreak
  rw [if_neg (by omega)]
  rw [List.all_eq_true]
  intro i hi
  rw [List.mem_range] at hi
  have hile : i ≤ idx := by omega
  rw [if_neg (by
    push_neg
    constructor
    · omega
    · have : ((idx : ℤ) - i).toNat = idx - i := by omega
      omega)]
  have htn : ((idx : ℤ) - i).toNat = idx - i := by omega
  rw [htn]
  have hlt : idx - i < dates.length := by omega
  obtain ⟨d, hd⟩ : ∃ d, dates[idx - i]? = some d :=
    ⟨dates.get ⟨idx - i, hlt⟩, List.getElem?_eq_getElem hlt⟩
  rw [hd]
  have hsymmem := hmem i hi d hd
  have hnil : growthRank d (countryOfInfo stockInfo sym) ≠ [] :=
    List.ne_nil_of_mem hsymmem
  show checkInGrowthTopPercentile growthRank sym d
    (countryOfInfo stockInfo sym) 100 = true
  simp only [checkInGrowthTopPercentile]
  rw [if_neg (by simp [List.isEmpty_iff, hnil])]
  have hceil : ⌈((growthRank d (countryOfInfo stockInfo sym)).length : ℚ) * 100 / 100⌉ =
      ((growthRank d (countryOfInfo stockInfo sym)).length : ℤ) := by
    rw [mul_div_assoc]
    norm_num
  rw [hceil]
  have hlen : 1 ≤ (growthRank d (countryOfInfo stockInfo sym)).length :=
    List.length_pos.mpr hnil
  have hmaxlen : max 1 (Int.toNat ((growthRank d (countryOfInfo stockInfo sym)).length : ℤ)) =
      (growthRank d (countryOfInfo stockInfo sym)).length := by
    rw [Int.toNat_natCast]
    omega
  rw [hmaxlen, List.take_length]
  exact List.elem_eq_true_of_mem hsymmem

/-- C9 witness: a symbol present in the (constant) country ranking on the two
dates ending at index 2 of a three-date calendar passes the percentile-100
growth streak. -/
theorem c9_growth_streak_witness :
    checkGrowthStreak [5, 6, 7] (fun _ => none) (fun _ _ => ["X"]) "X" 2 2 100 =
      true :=
  c9_growth_streak_percentile_100 [5, 6, 7] (fun _ => none) (fun _ _ => ["X"])
    "X" 2 2 (by decide) (by decide)
    (fun _ _ d _ => List.mem_singleton.mpr rfl)

/-- Strict count comparison: a predicate implied by another, with one listed
element separating them, counts strictly fewer list elements. -/
theorem countP_lt_of_witness {α : Type} (p q : α → Bool) :
    ∀ (l : List α) (x : α), x ∈ l → p x = false → q x = true →
      (∀ y ∈ l, p y = true → q y = true) → l.countP p < l.countP q := by
  intro l
  induction l with
  | nil => intro x hx; cases hx
  | cons a t ih =>
    intro x hx hpx hqx hpq
    rw [List.countP_cons, List.countP_cons]
    rcases List.mem_cons.mp hx with rfl | hxt
    · have h1 : t.countP p ≤ t.countP q :=
        List.countP_mono_left (fun y hy hpy => hpq y (List.mem_cons_of_mem _ hy) hpy)
      simp [hpx, hqx]
      omega
    · have h2 := ih x hxt hpx hqx (fun y hy hpy => hpq y (List.mem_cons_of_mem _ hy) hpy)
      have h3 : (if p a then 1 else 0) ≤ (if q a then 1 else 0) := by
        by_cases hpa : p a = true
        · simp [hpa, hpq a (List.mem_cons_self a t) hpa]
        · simp [hpa]
      omega

/-- C8: in every row of the ranking matrix, defined scores are ranked with
the min method descending: the ranked row is the image of the score row, tied
scores get the same rank, rank 1 is exactly a score no other defined score
strictly exceeds, and a strictly higher score gets a strictly smaller rank
number (so no symbol has a smaller rank than a symbol with a strictly higher
score). -/
theorem c8_ranking_matrix (matrix : List (List (Option ℚ)))
    (row : List (Option ℚ)) (hm : row ∈ matrix) (i j : ℕ) (v w : ℚ)
    (hi : row[i]? = some (some v)) (hj : row[j]? = some (some w)) :
    rankRow row ∈ calculateRankingMatrix matrix ∧
    (rankRow row)[i]? = some (some (rankValue row v)) ∧
    (rankRow row)[j]? = some (some (rankValue row w)) ∧
    (v = w → rankValue row v = rankValue row w) ∧
    (w < v → rankValue row v < rankValue row w) ∧
    (rankValue row v = 1 ↔ ∀ u : ℚ, some u ∈ row → u ≤ v) := by
  refine ⟨List.mem_map_of_mem rankRow hm, ?_, ?_, ?_, ?_, ?_⟩
  · simp [rankRow, List.getElem?_map, hi]
  · simp [rankRow, List.getElem?_map, hj]
  · intro h; rw [h]
  · intro hwv
    have hvmem : (some v : Option ℚ) ∈ row := by
      have := List.getElem?_eq_some.mp hi
      obtain ⟨h, hget⟩ := this
      exact hget ▸ List.getElem_mem h
    unfold rankValue
    have hcount : row.countP
        (fun o => match o with | some u => decide (v < u) | none => false) <
        row.countP
        (fun o => match o with | some u => decide (w < u) | none => false) := by
      apply countP_lt_of_witness _ _ row (some v) hvmem
      · simp
      · simp [hwv]
      · intro y hy hpy
        cases y with
        | none => simp at hpy
        | some u =>
          simp only [decide_eq_true_eq] at hpy ⊢
          exact lt_trans hwv hpy
    omega
  · unfold rankValue
    constructor
    · intro h1 u humem
      have hzero : row.countP
          (fun o => match o with | some u => decide (v < u) | none => false) = 0 := by
        omega
      have hall := List.countP_eq_zero.mp hzero (some u) humem
      simp only [decide_eq_true_eq] at hall
      exact not_lt.mp hall
    · intro hall
      have hzero : row.countP
          (fun o => match o with | some u => decide (v < u) | none => false) = 0 := by
        apply List.countP_eq_zero.mpr
        intro o ho
        cases o with
        | none => simp
        | some u =>
          simp only [decide_eq_true_eq]
          exact not_lt.mpr (hall u ho)
      omega

/-- C8 witness: the ranking properties on the concrete row 3, missing, 1, 3:
the tied 3s share rank 1 and the 1 ranks strictly below them. -/
theorem c8_ranking_matrix_witness :
    rankRow rowC8 ∈ calculateRankingMatrix matrixC8 ∧
    (rankRow rowC8)[0]? = some (some (rankValue rowC8 3)) ∧
    (rankRow rowC8)[2]? = some (some (rankValue rowC8 1)) ∧
    ((3 : ℚ) = 1 → rankValue rowC8 3 = rankValue rowC8 1) ∧
    ((1 : ℚ) < 3 → rankValue rowC8 3 < rankValue rowC8 1) ∧
    (rankValue rowC8 3 = 1 ↔ ∀ u : ℚ, some u ∈ rowC8 → u ≤ 3) :=
  c8_ranking_matrix matrixC8 rowC8 (by simp [matrixC8]) 0 2 3 1
    (by simp [rowC8]) (by simp [rowC8])

/-- In a pairwise-ordered list, the first element a search finds relates to
every later hit of the predicate. -/
theorem find_first_pairwise {α : Type} (R : α → α → Prop) (p : α → Bool) :
    ∀ l : List α, List.Pairwise R l → ∀ x, l.find? p = some x →
      ∀ y ∈ l, p y = true → R x y ∨ x = y := by
  intro l
  induction l with
  | nil => intro _ x hx; simp at hx
  | cons a t ih =>
    intro hpw x hx y hy hpy
    by_cases hpa : p a = true
    · rw [List.find?_cons_of_pos _ hpa] at hx
      injection hx with hax
      subst hax
      rcases List.mem_cons.mp hy with rfl | hyt
      · exact Or.inr rfl
      · exact Or.inl ((List.pairwise_cons.mp hpw).1 y hyt)
    · rw [List.find?_cons_of_neg _ hpa] at hx
      rcases List.mem_cons.mp hy with rfl | hyt
      · exact absurd hpy hpa
      · exact ih (List.pairwise_cons.mp hpw).2 x hx y hyt hpy

/-- Looking up a key of a table with distinct keys finds its stored pair. -/
theorem find_pair_of_mem_nodup :
    ∀ (l : List (ℤ × ℚ)) (d : ℤ) (r : ℚ), (d, r) ∈ l →
      (l.map Prod.fst).Nodup →
      l.find? (fun kv => kv.1 == d) = some (d, r) := by
  intro l
  induction l with
  | nil => intro d r h; cases h
  | cons a t ih =>
    intro d r hmem hnd
    rw [List.map_cons, List.nodup_cons] at hnd
    rcases List.mem_cons.mp hmem with rfl | hmt
    · exact List.find?_cons_of_pos _ (by simp)
    · have hne : ¬ (a.1 == d) = true := by
        simp only [beq_iff_eq]
        intro he
        apply hnd.1
        rw [he]
        exact List.mem_map_of_mem Prod.fst hmt
      rw [@List.find?_cons_of_neg (ℤ × ℚ) (fun kv => kv.1 == d) a t hne]
      exact ih d r hmt hnd.2

/-- The reversed-sorted key list of an FX table is pairwise descending. -/
theorem keysDesc_sorted (fx : FX) :
    List.Pairwise (fun a b : ℤ => b ≤ a) fx.keysDesc := by
  have h := @List.sorted_mergeSort ℤ (fun a b => decide (b ≤ a))
    (by intro a b c h1 h2; simp only [decide_eq_true_eq] at *; omega)
    (by intro a b; simp only [Bool.or_eq_true, decide_eq_true_eq]; omega)
    (fx.history.map Prod.fst)
  exact h.imp (fun hab => by simpa using hab)

/-- Membership in the sorted key list coincides with the raw key list. -/
theorem keysDesc_mem (fx : FX) (x : ℤ) :
    x ∈ fx.keysDesc ↔ x ∈ fx.history.map Prod.fst :=
  (List.mergeSort_perm (fx.history.map Prod.fst) _).mem_iff

/-- C7: for a table with distinct dates, FX.rate returns the exact-date rate
when the date is present, else the rate of the most recent date at or before
the query, else the hard-coded 32; to_twd and to_usd use this lookup and are
identities on money already in the target currency. -/
theorem c7_fx_lookup (fx : FX) (date : ℤ) (m : Money)
    (hnd : (fx.history.map Prod.fst).Nodup) :
    (∀ r : ℚ, (date, r) ∈ fx.history → fx.rate date = r) ∧
    (∀ d r, (d, r) ∈ fx.history → d ≤ date →
      (∀ d2 ∈ fx.history.map Prod.fst, d2 ≤ date → d2 ≤ d) →
      date ∉ fx.history.map Prod.fst → fx.rate date = r) ∧
    ((∀ d2 ∈ fx.history.map Prod.fst, date < d2) →
      fx.rate date = FX.DEFAULT_RATE) ∧
    (m.currency = Currency.TWD → fx.toTwd m date = m) ∧
    (m.currency = Currency.USD → fx.toTwd m date = twd (m.amount * fx.rate date)) ∧
    (m.currency = Currency.USD → fx.toUsd m date = m) ∧
    (m.currency = Currency.TWD → fx.toUsd m date = usd (m.amount / fx.rate date)) := by
  refine ⟨?_, ?_, ?_, ?_, ?_, ?_, ?_⟩
  · intro r hmem
    unfold FX.rate
    rw [find_pair_of_mem_nodup fx.history date r hmem hnd]
  · intro d r hmem hdle hmax hnotin
    unfold FX.rate
    have hnone : fx.history.find? (fun kv => kv.1 == date) = none := by
      rw [List.find?_eq_none]
      intro kv hkv
      simp only [beq_iff_eq]
      intro he
      exact hnotin (he ▸ List.mem_map_of_mem Prod.fst hkv)
    simp only [hnone]
    have hdmem : d ∈ fx.keysDesc := (keysDesc_mem fx d).mpr
      (List.mem_map_of_mem Prod.fst hmem)
    cases hf : fx.keysDesc.find? (fun k => decide (k ≤ date)) with
    | none =>
      exact absurd (decide_eq_true hdle) ((List.find?_eq_none.mp hf) d hdmem)
    | some d2 =>
      have hd2mem := List.mem_of_find?_eq_some hf
      have hd2p := List.find?_some hf
      simp only [decide_eq_true_eq] at hd2p
      have hd2le : d2 ≤ date := hd2p
      have h1 : d2 ≤ d := hmax d2 ((keysDesc_mem fx d2).mp hd2mem) hd2le
      have h2 : d ≤ d2 := by
        rcases find_first_pairwise (fun a b : ℤ => b ≤ a) _ fx.keysDesc
          (keysDesc_sorted fx) d2 hf d hdmem (decide_eq_true hdle) with h | h
        · exact h
        · omega
      have hdd : d2 = d := le_antisymm h1 h2
      subst hdd
      simp only [FX.lookup, find_pair_of_mem_nodup fx.history d2 r hmem hnd]
      rfl
  · intro hall
    unfold FX.rate
    have h1 : fx.history.find? (fun kv => kv.1 == date) = none := by
      rw [List.find?_eq_none]
      intro kv hkv
      simp only [beq_iff_eq]
      intro he
      have := hall kv.1 (List.mem_map_of_mem Prod.fst hkv)
      omega
    have h2 : fx.keysDesc.find? (fun k => decide (k ≤ date)) = none := by
      rw [List.find?_eq_none]
      intro x hx
      simp only [decide_eq_true_eq]
      have := hall x ((keysDesc_mem fx x).mp hx)
      omega
    simp only [h1, h2]
  · intro h
    unfold FX.toTwd
    rw [if_pos h]
  · intro h
    unfold FX.toTwd
    rw [if_neg (by simp [h])]
  · intro h
    unfold FX.toUsd
    rw [if_pos h]
  · intro h
    unfold FX.toUsd
    rw [if_neg (by simp [h])]

/-- C7 witness: in the two-point table with dates 10 and 20, the query at 15
takes the rate at 10, and converting TWD 64 to USD divides by that rate. -/
theorem c7_fx_lookup_witness :
    fxW.rate 15 = 31 ∧ fxW.toUsd (twd 64) 15 = usd (64 / fxW.rate 15) :=
  ⟨(c7_fx_lookup fxW 15 (twd 64) (by decide)).2.1 10 31 (by decide) (by decide)
     (by decide) (by decide),
   (c7_fx_lookup fxW 15 (twd 64) (by decide)).2.2.2.2.2.2 rfl⟩

/-- Left searchsorted of an element of a strictly increasing index is its
position. -/
theorem ssLeft_getElem :
    ∀ (l : List ℤ), List.Pairwise (· < ·) l →
      ∀ (i : ℕ) (x : ℤ), l[i]? = some x → ssLeft l x = i := by
  intro l
  induction l with
  | nil => intro _ i x hx; simp at hx
  | cons a t ih =>
    intro hl i x hx
    have hpc := List.pairwise_cons.mp hl
    cases i with
    | zero =>
      have hax : a = x := by simpa using hx
      subst hax
      show (a :: t).countP (fun d => decide (d < a)) = 0
      rw [List.countP_cons]
      have h0 : t.countP (fun d => decide (d < a)) = 0 :=
        List.countP_eq_zero.mpr (fun b hb => by
          simp only [decide_eq_true_eq]
          exact not_lt.mpr (hpc.1 b hb).le)
      simp [h0]
    | succ n =>
      have hx2 : t[n]? = some x := by simpa using hx
      have hxm : x ∈ t := by
        rcases List.getElem?_eq_some.mp hx2 with ⟨h, hget⟩
        exact hget ▸ List.getElem_mem h
      have hax : a < x := hpc.1 x hxm
      have hih := ih hpc.2 n x hx2
      unfold ssLeft at hih ⊢
      rw [List.countP_cons, hih]
      simp [hax]

/-- Right searchsorted of an element of a strictly increasing index is one
past its position. -/
theorem ssRight_getElem :
    ∀ (l : List ℤ), List.Pairwise (· < ·) l →
      ∀ (i : ℕ) (x : ℤ), l[i]? = some x → ssRight l x = i + 1 := by
  intro l
  induction l with
  | nil => intro _ i x hx; simp at hx
  | cons a t ih =>
    intro hl i x hx
    have hpc := List.pairwise_cons.mp hl
    cases i with
    | zero =>
      have hax : a = x := by simpa using hx
      subst hax
      show (a :: t).countP (fun d => decide (d ≤ a)) = 1
      rw [List.countP_cons]
      have h0 : t.countP (fun d => decide (d ≤ a)) = 0 :=
        List.countP_eq_zero.mpr (fun b hb => by
          simp only [decide_eq_true_eq]
          exact not_le.mpr (hpc.1 b hb))
      simp [h0]
    | succ n =>
      have hx2 : t[n]? = some x := by simpa using hx
      have hxm : x ∈ t := by
        rcases List.getElem?_eq_some.mp hx2 with ⟨h, hget⟩
        exact hget ▸ List.getElem_mem h
      have hax : a ≤ x := (hpc.1 x hxm).le
      have hih := ih hpc.2 n x hx2
      unfold ssRight at hih ⊢
      rw [List.countP_cons, hih]
      simp [hax]

/-- In a strictly increasing index a smaller element sits at a smaller
position. -/
theorem index_lt_of_getElem_lt (l : List ℤ) (hl : List.Pairwise (· < ·) l)
    {i j : ℕ} {x y : ℤ} (hi : l[i]? = some x) (hj : l[j]? = some y)
    (hxy : x < y) : i < j := by
  rcases List.getElem?_eq_some.mp hi with ⟨hi1, hi2⟩
  rcases List.getElem?_eq_some.mp hj with ⟨hj1, hj2⟩
  by_contra hcon
  push_neg at hcon
  rcases lt_or_eq_of_le hcon with hji | hji
  · have hlt : l[j] < l[i] := (List.pairwise_iff_getElem.mp hl) j i hj1 hi1 hji
    rw [hi2, hj2] at hlt
    omega
  · subst hji
    rw [hi2] at hj2
    omega

/-- C4: when resolve_date_range rejects the configured range (no data at or
before the end, no data at or after the start, or resolved start not before
resolved end) the pipeline returns that error before the simulation loop
starts; otherwise both endpoints are clamped to dates of the price-matrix
index, and the engine loop visits exactly the index positions from the
resolved start index to the resolved end index inclusive. -/
theorem c4_date_range (env : Env) (cfg : Config) (startRaw endRaw : ℤ)
    (hsorted : List.Pairwise (· < ·) env.dates) :
    (∀ msg, resolveDateRange startRaw endRaw env.dates = Except.error msg →
      runBacktest env cfg startRaw endRaw = Except.error msg) ∧
    (∀ s e, resolveDateRange startRaw endRaw env.dates = Except.ok (s, e) →
      s ∈ env.dates ∧ e ∈ env.dates ∧ s < e ∧
      ∃ i j, i < j ∧ env.dates[i]? = some s ∧ env.dates[j]? = some e ∧
        runDayIndices env.dates s e = List.range' i (j + 1 - i) ∧
        runBacktest env cfg startRaw endRaw =
          Except.ok (runEngine env cfg s e)) := by
  constructor
  · intro msg hmsg
    simp [runBacktest, hmsg]
  · intro s e hok
    have hres := hok
    simp only [resolveDateRange] at hok
    split_ifs at hok with h1 h2 h3
    rw [Except.ok.injEq, Prod.mk.injEq] at hok
    obtain ⟨hs, he⟩ := hok
    have hcount : ssRight env.dates endRaw ≤ env.dates.length :=
      List.countP_le_length _
    set i : ℕ := ssLeft env.dates startRaw with hidef
    set j : ℕ := ((ssRight env.dates endRaw : ℤ) - 1).toNat with hjdef
    have hi_lt : i < env.dates.length := by omega
    have hj_lt : j < env.dates.length := by omega
    have hgetDi : env.dates.getD i 0 = env.dates[i] := by
      rw [List.getD_eq_getElem?_getD, List.getElem?_eq_getElem hi_lt]
      rfl
    have hgetDj : env.dates.getD j 0 = env.dates[j] := by
      rw [List.getD_eq_getElem?_getD, List.getElem?_eq_getElem hj_lt]
      rfl
    have hsomei : env.dates[i]? = some s := by
      rw [List.getElem?_eq_getElem hi_lt, ← hs, hgetDi]
    have hsomej : env.dates[j]? = some e := by
      rw [List.getElem?_eq_getElem hj_lt, ← he, hgetDj]
    have hse : s < e := by
      rw [← hs, ← he]
      exact not_le.mp h3
    have hij : i < j := index_lt_of_getElem_lt env.dates hsorted hsomei hsomej hse
    have hmems : s ∈ env.dates := by
      rcases List.getElem?_eq_some.mp hsomei with ⟨h, hget⟩
      exact hget ▸ List.getElem_mem h
    have hmeme : e ∈ env.dates := by
      rcases List.getElem?_eq_some.mp hsomej with ⟨h, hget⟩
      exact hget ▸ List.getElem_mem h
    refine ⟨hmems, hmeme, hse, i, j, hij, hsomei, hsomej, ?_, ?_⟩
    · unfold runDayIndices
      rw [ssLeft_getElem env.dates hsorted i s hsomei,
          ssRight_getElem env.dates hsorted j e hsomej]
      have h5 : ((((j + 1 : ℕ)) : ℤ) - 1 + 1 - (i : ℤ)).toNat = j + 1 - i := by
        push_cast
        omega
      show List.range' i ((((j + 1 : ℕ) : ℤ) - 1 + 1 - (i : ℤ)).toNat) =
        List.range' i (j + 1 - i)
      rw [h5]
    · simp [runBacktest, hres]

/-- C4 witness: on the three-day index 0, 1, 2 the configured range 0 to 2
resolves and the loop visits indices 0, 1, 2. -/
theorem c4_date_range_witness :
    (0 : ℤ) ∈ envC4.dates ∧ (2 : ℤ) ∈ envC4.dates ∧ (0 : ℤ) < 2 ∧
    ∃ i j, i < j ∧ envC4.dates[i]? = some 0 ∧ envC4.dates[j]? = some 2 ∧
      runDayIndices envC4.dates 0 2 = List.range' i (j + 1 - i) ∧
      runBacktest envC4 cfgTriv 0 2 = Except.ok (runEngine envC4 cfgTriv 0 2) :=
  (c4_date_range envC4 cfgTriv 0 2 (by decide)).2 0 2 (by rfl)

/-- Python int truncation of a positive rational is its floor. -/
theorem pyTrunc_of_pos {q : ℚ} (h : 0 < q) : pyTrunc q = ⌊q⌋ := by
  unfold pyTrunc
  rw [if_neg (not_lt.mpr h.le)]

/-- Buying a positive whole number of shares at price p out of budget b
spends more than half the budget. -/
theorem floor_mul_gt_half (b p : ℚ) (_hb : 0 < b) (hp : 0 < p)
    (h1 : 1 ≤ ⌊b / p⌋) : b / 2 < (⌊b / p⌋ : ℚ) * p := by
  rcases le_or_lt p (b / 2) with hc | hc
  · have h2 : b / p - 1 < (⌊b / p⌋ : ℚ) := Int.sub_one_lt_floor (b / p)
    have h3 : (b / p - 1) * p < (⌊b / p⌋ : ℚ) * p :=
      mul_lt_mul_of_pos_right h2 hp
    have h4 : (b / p - 1) * p = b - p := by
      field_simp
    rw [h4] at h3
    linarith
  · have h4 : (1 : ℚ) * p ≤ (⌊b / p⌋ : ℚ) * p := by
      apply mul_le_mul_of_nonneg_right _ hp.le
      exact_mod_cast h1
    linarith

/-- The trade fee is never negative. -/
theorem buyFee_nonneg (env : Env) (sym : String) (x : ℚ) :
    0 ≤ buyFeeOf env sym x := by
  unfold buyFeeOf
  refine le_trans ?_ (le_max_right _ _)
  split <;> norm_num [feesUs, feesTw]

/-- A positive share count implies a TWD cost above half the per-stock
budget. -/
theorem buyAmountTwd_gt_half (env : Env) (date : ℤ) (amt priceRaw : ℚ)
    (sym : String) (hamt : 0 < amt) (hrate : ∀ d, 0 < env.fx.rate d)
    (hpr : 0 < priceRaw)
    (hshares : 1 ≤ buySharesOf env date amt priceRaw sym) :
    amt * (1 / 2) <
      buyAmountTwdOf env date priceRaw sym
        (buySharesOf env date amt priceRaw sym) := by
  by_cases hus : countryOfInfo env.stockInfo sym = "TW"
  · have hsh_eq : buySharesOf env date amt priceRaw sym = ⌊amt / priceRaw⌋ := by
      unfold buySharesOf
      rw [if_neg (by simp [hus])]
      exact pyTrunc_of_pos (div_pos hamt hpr)
    have hat : buyAmountTwdOf env date priceRaw sym
        (buySharesOf env date amt priceRaw sym) =
        ((buySharesOf env date amt priceRaw sym : ℚ)) * priceRaw := by
      unfold buyAmountTwdOf buyAmountOriginalOf
      rw [if_neg (by simp [hus]), if_neg (by simp [hus])]
      push_cast [twd]
      ring
    rw [hat, hsh_eq]
    have hmain := floor_mul_gt_half amt priceRaw hamt hpr
      (by rw [hsh_eq] at hshares; exact hshares)
    calc amt * (1 / 2) = amt / 2 := by ring
    _ < _ := hmain
  · set r := env.fx.rate date with hrdef
    have hr : 0 < r := hrate date
    have hbudget : (env.fx.toUsd (twd amt) date).amount = amt / r := by
      unfold FX.toUsd
      rw [if_neg (by simp [twd])]
      rfl
    have hsh_eq : buySharesOf env date amt priceRaw sym =
        ⌊(amt / r) / priceRaw⌋ := by
      unfold buySharesOf
      rw [if_pos (by simp [hus]), hbudget]
      exact pyTrunc_of_pos (div_pos (div_pos hamt hr) hpr)
    have hat : buyAmountTwdOf env date priceRaw sym
        (buySharesOf env date amt priceRaw sym) =
        ((buySharesOf env date amt priceRaw sym : ℚ)) * priceRaw * r := by
      unfold buyAmountTwdOf buyAmountOriginalOf
      rw [if_pos (by simp [hus]), if_pos (by simp [hus])]
      unfold FX.toTwd
      rw [if_neg (by simp [usd])]
      push_cast [usd, twd]
      ring
    rw [hat, hsh_eq]
    have hmain := floor_mul_gt_half (amt / r) priceRaw (div_pos hamt hr) hpr
      (by rw [hsh_eq] at hshares; exact hshares)
    have hmul : (amt / r) / 2 * r < (⌊(amt / r) / priceRaw⌋ : ℚ) * priceRaw * r :=
      mul_lt_mul_of_pos_right hmain hr
    have heq : (amt / r) / 2 * r = amt * (1 / 2) := by
      field_simp
      ring
    linarith

/-- Once cash is below half the per-stock budget, the candidate step is a
no-op. -/
theorem buyStep_of_low_cash (env : Env) (idx : ℕ) (date : ℤ) (amt : ℚ)
    (hamt : 0 < amt) (hrate : ∀ d, 0 < env.fx.rate d) (s : EngineState)
    (sym : String) (hlow : s.cash < amt * (1 / 2)) :
    buyStep env idx date amt s sym = s := by
  by_cases hheld : heldSymbol s sym = true
  · unfold buyStep
    rw [if_pos hheld]
  · have hheld2 : heldSymbol s sym = false := by simpa using hheld
    cases hclose : env.close idx sym with
    | none => simp [buyStep, hheld2, hclose]
    | some priceRaw =>
      by_cases hpr : priceRaw ≤ 0
      · simp [buyStep, hheld2, hclose, hpr]
      · have hpr2 : 0 < priceRaw := not_le.mp hpr
        by_cases hsh : buySharesOf env date amt priceRaw sym ≤ 0
        · simp [buyStep, hheld2, hclose, hpr, hsh]
        · have hshares : 1 ≤ buySharesOf env date amt priceRaw sym := by omega
          have hkey := buyAmountTwd_gt_half env date amt priceRaw sym hamt
            hrate hpr2 hshares
          have hfee := buyFee_nonneg env sym
            (buyAmountTwdOf env date priceRaw sym
              (buySharesOf env date amt priceRaw sym))
          have hcost : s.cash <
              buyAmountTwdOf env date priceRaw sym
                (buySharesOf env date amt priceRaw sym) +
              buyFeeOf env sym
                (buyAmountTwdOf env date priceRaw sym
                  (buySharesOf env date amt priceRaw sym)) := by
            linarith
          simp [buyStep, hheld2, hclose, hpr, hsh, hcost]

/-- With cash below half the budget, the whole no-break fold is a no-op. -/
theorem foldl_buyStep_of_low_cash (env : Env) (idx : ℕ) (date : ℤ) (amt : ℚ)
    (hamt : 0 < amt) (hrate : ∀ d, 0 < env.fx.rate d) (s : EngineState)
    (hlow : s.cash < amt * (1 / 2)) :
    ∀ syms : List String, syms.foldl (buyStep env idx date amt) s = s := by
  intro syms
  induction syms with
  | nil => rfl
  | cons a t ih =>
    rw [List.foldl_cons,
      buyStep_of_low_cash env idx date amt hamt hrate s a hlow, ih]

/-- C5: for a positive per-stock budget and positive FX rates, the buy loop
with its half-budget break equals the plain left fold of the candidate step,
and for each candidate with a defined positive price that is not already
held: if the computed shares are non-positive or the total TWD cost (amount
plus fee) exceeds the available cash, the candidate is skipped with the state
unchanged; otherwise cash is debited by the total cost, a Position is
appended and a buy Trade is recorded. -/
theorem c5_buy_execution (env : Env) (idx : ℕ) (date : ℤ) (amt : ℚ)
    (hamt : 0 < amt) (hrate : ∀ d, 0 < env.fx.rate d) :
    (∀ (s : EngineState) (syms : List String),
      buyStocks env idx date amt s syms =
        syms.foldl (buyStep env idx date amt) s) ∧
    (∀ (s : EngineState) (sym : String) (priceRaw : ℚ),
      env.close idx sym = some priceRaw → 0 < priceRaw →
      heldSymbol s sym = false →
      ((buySharesOf env date amt priceRaw sym ≤ 0 ∨
        s.cash < buyAmountTwdOf env date priceRaw sym
            (buySharesOf env date amt priceRaw sym) +
          buyFeeOf env sym (buyAmountTwdOf env date priceRaw sym
            (buySharesOf env date amt priceRaw sym))) →
        buyStep env idx date amt s sym = s) ∧
      (0 < buySharesOf env date amt priceRaw sym →
        buyAmountTwdOf env date priceRaw sym
            (buySharesOf env date amt priceRaw sym) +
          buyFeeOf env sym (buyAmountTwdOf env date priceRaw sym
            (buySharesOf env date amt priceRaw sym)) ≤ s.cash →
        buyStep env idx date amt s sym =
          { s with
            cash := s.cash - (buyAmountTwdOf env date priceRaw sym
                (buySharesOf env date amt priceRaw sym) +
              buyFeeOf env sym (buyAmountTwdOf env date priceRaw sym
                (buySharesOf env date amt priceRaw sym)))
            positions := s.positions ++
              [⟨sym, buySharesOf env date amt priceRaw sym,
                buyPriceMoneyOf env priceRaw sym,
                buyAmountTwdOf env date priceRaw sym
                  (buySharesOf env date amt priceRaw sym) +
                  buyFeeOf env sym (buyAmountTwdOf env date priceRaw sym
                    (buySharesOf env date amt priceRaw sym)),
                date, buyPriceMoneyOf env priceRaw sym, priceRaw,
                countryOfInfo env.stockInfo sym⟩]
            trades := s.trades ++
              [⟨date, sym, TradeType.buy, buySharesOf env date amt priceRaw sym,
                buyPriceMoneyOf env priceRaw sym,
                buyAmountOriginalOf env priceRaw sym
                  (buySharesOf env date amt priceRaw sym),
                buyAmountTwdOf env date priceRaw sym
                  (buySharesOf env date amt priceRaw sym),
                buyFeeOf env sym (buyAmountTwdOf env date priceRaw sym
                  (buySharesOf env date amt priceRaw sym)),
                "buy", 0⟩] })) := by
  constructor
  · intro s syms
    induction syms generalizing s with
    | nil => rfl
    | cons a t ih =>
      rw [List.foldl_cons]
      unfold buyStocks
      by_cases hlow : s.cash < amt * (1 / 2)
      · rw [if_pos hlow,
          buyStep_of_low_cash env idx date amt hamt hrate s a hlow,
          foldl_buyStep_of_low_cash env idx date amt hamt hrate s hlow t]
      · rw [if_neg hlow, ih]
  · intro s sym priceRaw hclose hpr hheld
    have hpr2 : ¬ priceRaw ≤ 0 := not_le.mpr hpr
    constructor
    · intro h
      rcases h with h | h
      · simp [buyStep, hheld, hclose, hpr2, h]
      · by_cases hsh : buySharesOf env date amt priceRaw sym ≤ 0
        · simp [buyStep, hheld, hclose, hpr2, hsh]
        · simp [buyStep, hheld, hclose, hpr2, hsh, h]
    · intro hsh hcost
      have hsh2 : ¬ buySharesOf env date amt priceRaw sym ≤ 0 := not_le.mpr hsh
      have hcost2 : ¬ s.cash < buyAmountTwdOf env date priceRaw sym
          (buySharesOf env date amt priceRaw sym) +
          buyFeeOf env sym (buyAmountTwdOf env date priceRaw sym
            (buySharesOf env date amt priceRaw sym)) := not_lt.mpr hcost
      simp [buyStep, hheld, hclose, hpr2, hsh2, hcost2]

/-- The rate of an empty FX table is the hard-coded fallback. -/
theorem fx_empty_rate (d : ℤ) : FX.rate ⟨[]⟩ d = 32 := by
  simp [FX.rate, FX.keysDesc, FX.DEFAULT_RATE]

/-- C5 witness: the buy-loop characterization at a one-symbol TW environment
with budget 100 and the empty FX table. -/
theorem c5_buy_execution_witness :
    (0 : ℚ) < 100 ∧ (∀ d, 0 < envC5.fx.rate d) ∧
    (∀ (s : EngineState) (syms : List String),
      buyStocks envC5 0 0 100 s syms =
        syms.foldl (buyStep envC5 0 0 100) s) :=
  ⟨by norm_num,
   fun d => by
     show (0 : ℚ) < FX.rate ⟨[]⟩ d
     rw [fx_empty_rate]
     norm_num,
   (c5_buy_execution envC5 0 0 100 (by norm_num)
     (fun d => by
       show (0 : ℚ) < FX.rate ⟨[]⟩ d
       rw [fx_empty_rate]
       norm_num)).1⟩

/-- Peak updates never touch the equity curve. -/
theorem updatePeaks_equityCurve (env : Env) (idx : ℕ) (s : EngineState) :
    (updatePeaks env idx s).equityCurve = s.equityCurve := rfl

/-- Selling a position never touches the equity curve. -/
theorem sellOne_equityCurve (env : Env) (idx : ℕ) (date : ℤ)
    (sym reason : String) (s : EngineState) :
    (sellOne env idx date sym reason s).equityCurve = s.equityCurve := by
  unfold sellOne
  split <;> rfl

/-- The sharpe_fail rule only updates counters. -/
theorem sellRuleSharpeFail_equityCurve (env : Env) (cfg : Config)
    (sym : String) (idx : ℕ) (s : EngineState) :
    (sellRuleSharpeFail env cfg sym idx s).1.equityCurve = s.equityCurve := by
  unfold sellRuleSharpeFail
  try dsimp only
  repeat (first | rfl | split)
  all_goals rfl

/-- The growth_fail rule only reads indicators. -/
theorem sellRuleGrowthFail_equityCurve (env : Env) (cfg : Config)
    (sym : String) (idx : ℕ) (s : EngineState) :
    (sellRuleGrowthFail env cfg sym idx s).1.equityCurve = s.equityCurve := by
  unfold sellRuleGrowthFail
  try dsimp only
  repeat (first | rfl | split)
  all_goals rfl

/-- The not_selected rule only updates counters. -/
theorem sellRuleNotSelected_equityCurve (cfg : Config) (sym : String)
    (selected : List String) (s : EngineState) :
    (sellRuleNotSelected cfg sym selected s).1.equityCurve = s.equityCurve := by
  unfold sellRuleNotSelected
  try dsimp only
  repeat (first | rfl | split)
  all_goals rfl

/-- The drawdown rule reads prices only. -/
theorem sellRuleDrawdown_equityCurve (env : Env) (cfg : Config) (sym : String)
    (idx : ℕ) (pos : Position) (s : EngineState) :
    (sellRuleDrawdown env cfg sym idx pos s).1.equityCurve = s.equityCurve := by
  unfold sellRuleDrawdown
  try dsimp only
  repeat (first | rfl | split)
  all_goals rfl

/-- The weakness rule only updates counters. -/
theorem sellRuleWeakness_equityCurve (env : Env) (cfg : Config) (sym : String)
    (idx : ℕ) (s : EngineState) :
    (sellRuleWeakness env cfg sym idx s).1.equityCurve = s.equityCurve := by
  unfold sellRuleWeakness
  try dsimp only
  repeat (first | rfl | split)
  all_goals rfl

/-- Chaining sell rules preserves any equity-curve equation of the first. -/
theorem orElseSell_equityCurve (a : EngineState × Option String)
    (f : EngineState → EngineState × Option String) (c : List EquityPoint)
    (ha : a.1.equityCurve = c)
    (hf : ∀ s, (f s).1.equityCurve = s.equityCurve) :
    (orElseSell a f).1.equityCurve = c := by
  rcases a with ⟨s1, r⟩
  cases r with
  | none =>
    show (f s1).1.equityCurve = c
    rw [hf s1]
    exact ha
  | some v => exact ha

/-- _check_sell never touches the equity curve. -/
theorem checkSell_equityCurve (env : Env) (cfg : Config) (sym : String)
    (idx : ℕ) (selected : List String) (pos : Position) (s : EngineState) :
    (checkSell env cfg sym idx selected pos s).1.equityCurve = s.equityCurve := by
  unfold checkSell
  apply orElseSell_equityCurve _ _ _
    (sellRuleSharpeFail_equityCurve env cfg sym idx s)
  intro s1
  apply orElseSell_equityCurve _ _ _
    (sellRuleGrowthFail_equityCurve env cfg sym idx s1)
  intro s2
  apply orElseSell_equityCurve _ _ _
    (sellRuleNotSelected_equityCurve cfg sym selected s2)
  intro s3
  apply orElseSell_equityCurve _ _ _
    (sellRuleDrawdown_equityCurve env cfg sym idx pos s3)
  intro s4
  exact sellRuleWeakness_equityCurve env cfg sym idx s4

/-- The sell scan step never touches the equity curve. -/
theorem sellScanStep_equityCurve (env : Env) (cfg : Config) (idx : ℕ)
    (selected : List String) (acc : EngineState × List (String × String))
    (pos : Position) :
    (sellScanStep env cfg idx selected acc pos).1.equityCurve =
      acc.1.equityCurve := by
  unfold sellScanStep
  dsimp only
  split <;> exact checkSell_equityCurve env cfg pos.symbol idx selected pos acc.1

/-- The whole sell scan never touches the equity curve. -/
theorem foldl_sellScan_equityCurve (env : Env) (cfg : Config) (idx : ℕ)
    (selected : List String) :
    ∀ (ps : List Position) (acc : EngineState × List (String × String)),
      ((ps.foldl (sellScanStep env cfg idx selected) acc).1).equityCurve =
        acc.1.equityCurve := by
  intro ps
  induction ps with
  | nil => intro acc; rfl
  | cons p t ih =>
    intro acc
    rw [List.foldl_cons, ih, sellScanStep_equityCurve]

/-- Executing a list of sells never touches the equity curve. -/
theorem foldl_sellOne_equityCurve (env : Env) (idx : ℕ) (date : ℤ) :
    ∀ (l : List (String × String)) (s : EngineState),
      (l.foldl (fun st pr => sellOne env idx date pr.1 pr.2 st) s).equityCurve =
        s.equityCurve := by
  intro l
  induction l with
  | nil => intro s; rfl
  | cons a t ih =>
    intro s
    rw [List.foldl_cons, ih, sellOne_equityCurve]

/-- _process_sells never touches the equity curve. -/
theorem processSells_equityCurve (env : Env) (cfg : Config) (idx : ℕ)
    (date : ℤ) (s : EngineState) :
    (processSells env cfg idx date s).equityCurve = s.equityCurve := by
  unfold processSells
  rw [foldl_sellOne_equityCurve, foldl_sellScan_equityCurve]

/-- One buy candidate step never touches the equity curve. -/
theorem buyStep_equityCurve (env : Env) (idx : ℕ) (date : ℤ) (amt : ℚ)
    (s : EngineState) (sym : String) :
    (buyStep env idx date amt s sym).equityCurve = s.equityCurve := by
  unfold buyStep
  try dsimp only
  repeat (first | rfl | split)
  all_goals rfl

/-- The buy loop never touches the equity curve. -/
theorem buyStocks_equityCurve (env : Env) (idx : ℕ) (date : ℤ) (amt : ℚ) :
    ∀ (syms : List String) (s : EngineState),
      (buyStocks env idx date amt s syms).equityCurve = s.equityCurve := by
  intro syms
  induction syms with
  | nil => intro s; rfl
  | cons a t ih =>
    intro s
    unfold buyStocks
    split
    · rfl
    · rw [ih, buyStep_equityCurve]

/-- _process_rebalance never touches the equity curve. -/
theorem processRebalance_equityCurve (env : Env) (cfg : Config) (idx : ℕ)
    (date : ℤ) (s : EngineState) :
    (processRebalance env cfg idx date s).equityCurve = s.equityCurve := by
  unfold processRebalance
  try dsimp only
  repeat' (first | rfl | split)
  all_goals (first | rfl | exact buyStocks_equityCurve env idx date _ _ s)

/-- The equity component of _calc_equity_with_holdings accumulates cash plus
the market values. -/
theorem calcEquityWithHoldings_fold (env : Env) (idx : ℕ) :
    ∀ (ps : List Position) (c hv : ℚ) (hs : List Holding),
      (ps.foldl (fun acc pos =>
        let mv := marketValueTwd env idx pos
        (acc.1 + mv, acc.2.1 + mv, acc.2.2 ++ [⟨pos.symbol, pos.shares, mv⟩]))
        (c, hv, hs)).1 = c + (ps.map (marketValueTwd env idx)).sum := by
  intro ps
  induction ps with
  | nil => intro c hv hs; simp
  | cons p t ih =>
    intro c hv hs
    rw [List.foldl_cons]
    dsimp only
    rw [ih, List.map_cons, List.sum_cons]
    ring

/-- The appended day's equity equals cash plus the market values of the open
positions. -/
theorem calcEquityWithHoldings_equity (env : Env) (idx : ℕ) (s : EngineState) :
    (calcEquityWithHoldings env idx s).1 =
      s.cash + (s.positions.map (marketValueTwd env idx)).sum :=
  calcEquityWithHoldings_fold env idx s.positions s.cash 0 []

/-- _process_day appends exactly the snapshot of the day's post-trade
state. -/
theorem processDay_curve (env : Env) (cfg : Config) (s : EngineState)
    (idx : ℕ) :
    (processDay env cfg s idx).equityCurve =
      s.equityCurve ++ [daySnapshot env cfg idx s] := by
  have hs3 : (dayTradeState env cfg idx s).equityCurve = s.equityCurve := by
    unfold dayTradeState
    rw [processRebalance_equityCurve, processSells_equityCurve,
        updatePeaks_equityCurve]
  unfold daySnapshot
  show (dayTradeState env cfg idx s).equityCurve ++
      [⟨env.dateOf idx,
        (calcEquityWithHoldings env idx (dayTradeState env cfg idx s)).1,
        (dayTradeState env cfg idx s).cash,
        (calcEquityWithHoldings env idx (dayTradeState env cfg idx s)).2.1,
        (calcEquityWithHoldings env idx (dayTradeState env cfg idx s)).2.2⟩] = _
  rw [hs3, calcEquityWithHoldings_equity]

/-- The curve produced by a day-loop fold is the inherited curve followed by
the snapshots of the visited days, each from the actual state before its
day. -/
theorem foldl_curve_daySnapshots (env : Env) (cfg : Config) :
    ∀ (L : List ℕ) (s0 : EngineState),
      (L.foldl (processDay env cfg) s0).equityCurve =
        s0.equityCurve ++ daySnapshots env cfg s0 L := by
  intro L
  induction L with
  | nil => intro s0; simp [daySnapshots]
  | cons a t ih =>
    intro s0
    rw [List.foldl_cons, ih, processDay_curve, List.append_assoc,
        List.singleton_append]
    rfl

/-- Indexing the snapshot list: the k-th snapshot belongs to the k-th visited
day, taken in the state reached by folding the first k days. -/
theorem daySnapshots_getElem (env : Env) (cfg : Config) :
    ∀ (L : List ℕ) (s0 : EngineState) (k idx : ℕ), L[k]? = some idx →
      (daySnapshots env cfg s0 L)[k]? =
        some (daySnapshot env cfg idx
          ((L.take k).foldl (processDay env cfg) s0)) := by
  intro L
  induction L with
  | nil => intro s0 k idx h; simp at h
  | cons a t ih =>
    intro s0 k idx h
    cases k with
    | zero =>
      have ha : a = idx := by simpa using h
      subst ha
      simp [daySnapshots]
    | succ n =>
      have h2 : t[n]? = some idx := by simpa using h
      show (daySnapshot env cfg a s0 ::
        daySnapshots env cfg (processDay env cfg s0 a) t)[n + 1]? = _
      rw [List.getElem?_cons_succ, ih (processDay env cfg s0 a) n idx h2]
      rfl

/-- C1: the run's equity curve is exactly the per-day snapshot list, and the
k-th appended point's equity equals that day's post-trade cash plus the sum
over that day's actual open positions of shares times the day's price,
converted to TWD at the day's FX rate for non-TW positions; the day state is
the state the run itself reached (the fold of the first k visited days from
the fresh engine state). -/
theorem c1_equity_invariant (env : Env) (cfg : Config)
    (startDate endDate : ℤ) :
    (runEngine env cfg startDate endDate).equityCurve =
      daySnapshots env cfg (initState cfg)
        (runDayIndices env.dates startDate endDate) ∧
    ∀ k idx : ℕ, (runDayIndices env.dates startDate endDate)[k]? = some idx →
      (runEngine env cfg startDate endDate).equityCurve[k]? = some
        ⟨env.dateOf idx,
         (dayTradeState env cfg idx
             (runStateUpTo env cfg startDate endDate k)).cash +
           ((dayTradeState env cfg idx
               (runStateUpTo env cfg startDate endDate k)).positions.map
             (marketValueTwd env idx)).sum,
         (dayTradeState env cfg idx
           (runStateUpTo env cfg startDate endDate k)).cash,
         (calcEquityWithHoldings env idx (dayTradeState env cfg idx
           (runStateUpTo env cfg startDate endDate k))).2.1,
         (calcEquityWithHoldings env idx (dayTradeState env cfg idx
           (runStateUpTo env cfg startDate endDate k))).2.2⟩ := by
  have hcurve : (runEngine env cfg startDate endDate).equityCurve =
      daySnapshots env cfg (initState cfg)
        (runDayIndices env.dates startDate endDate) := by
    show ((runDayIndices env.dates startDate endDate).foldl (processDay env cfg)
      (initState cfg)).equityCurve = _
    rw [foldl_curve_daySnapshots]
    rfl
  refine ⟨hcurve, ?_⟩
  intro k idx h
  rw [hcurve, daySnapshots_getElem env cfg
    (runDayIndices env.dates startDate endDate) (initState cfg) k idx h]
  rfl

/-- C1 witness: on the trivial one-day run, day index 0 is visited and the
single curve entry is the day's snapshot of the actual day state. -/
theorem c1_equity_invariant_witness :
    (runDayIndices envTriv.dates 0 0)[0]? = some 0 ∧
    (runEngine envTriv cfgTriv 0 0).equityCurve[0]? = some
      ⟨envTriv.dateOf 0,
       (dayTradeState envTriv cfgTriv 0 (runStateUpTo envTriv cfgTriv 0 0 0)).cash +
         ((dayTradeState envTriv cfgTriv 0
             (runStateUpTo envTriv cfgTriv 0 0 0)).positions.map
           (marketValueTwd envTriv 0)).sum,
       (dayTradeState envTriv cfgTriv 0 (runStateUpTo envTriv cfgTriv 0 0 0)).cash,
       (calcEquityWithHoldings envTriv 0 (dayTradeState envTriv cfgTriv 0
         (runStateUpTo envTriv cfgTriv 0 0 0))).2.1,
       (calcEquityWithHoldings envTriv 0 (dayTradeState envTriv cfgTriv 0
         (runStateUpTo envTriv cfgTriv 0 0 0))).2.2⟩ :=
  ⟨by decide,
   (c1_equity_invariant envTriv cfgTriv 0 0).2 0 0 (by decide)⟩

/-- C10: the engine run never reads rebalance_freq (the daily loop runs the
rebalance/buy step every day and never consults _is_rebalance_day), so two
configurations differing only in rebalance_freq produce the same trade ledger
and the same equity curve. -/
theorem c10_rebalance_freq_independent (env : Env) (cfg : Config)
    (freq : String) (startDate endDate : ℤ) :
    (runEngine env { cfg with rebalanceFreq := freq } startDate endDate).trades =
      (runEngine env cfg startDate endDate).trades ∧
    (runEngine env { cfg with rebalanceFreq := freq } startDate endDate).equityCurve =
      (runEngine env cfg startDate endDate).equityCurve := by
  have h : runEngine env { cfg with rebalanceFreq := freq } startDate endDate =
      runEngine env cfg startDate endDate := by
    cases cfg
    rfl
  exact ⟨congrArg EngineState.trades h, congrArg EngineState.equityCurve h⟩

end FinPack

